import Mathlib

set_option maxRecDepth 100000

/-!
# SonicTransfer — verification of the signal/framing core

Shallow embedding of the SonicTransfer acoustic file-transfer implementation
(`sonic-transfer` v2.5 source). Bytes are modelled as `Nat` (values `< 256`
where the `Uint8Array` domain matters), bit strings as `List Bool`, packet
strings as `List Char`. JavaScript `undefined` array reads that are later
coerced through `Uint8Array` are modelled as `0`, which is observationally
equivalent because no other operation inspects those slots.

The file is organised as: all definitions first, then all theorems.
-/

namespace SonicTransfer

/-! ## LZ77 codec (`class LZCompressor`)

`windowSize = 4096`, `lookaheadSize = 18`.  `compress` writes a 4-byte
big-endian original-length header followed by literal bytes and
`(0xFF, dist_hi, dist_lo, len)` match quadruplets; `decompress` inverts. -/

/-- The inner `while` of `LZCompressor.compress`: starting from candidate
length `k`, extend the match of window position `i` against cursor `pos`
while `length < 18 && pos+length < input.length && input[i+length] === input[pos+length]`.
The `length < 18` guard is carried as the remaining budget `fuel = 18 - k`,
so recursion is structural. -/
def matchLenAux (input : List Nat) (i pos : Nat) : Nat → Nat → Nat
  | 0, k => k
  | fuel + 1, k =>
    if pos + k < input.length ∧ input.getD (i + k) 0 = input.getD (pos + k) 0 then
      matchLenAux input i pos fuel (k + 1)
    else k

/-- The match length the compress search computes at window position `i`:
the inner `while` started at `length = 0` with lookahead budget 18. -/
def matchLen (input : List Nat) (i pos : Nat) : Nat :=
  matchLenAux input i pos 18 0

/-- The match-search loop of `LZCompressor.compress`: scan
`i = max(0, pos-4096) .. pos-1`, keeping `(matchLength, matchDistance)`;
the update fires only on `length > matchLength` (strict), so the first
position attaining the final maximum is kept. -/
def findMatch (input : List Nat) (pos : Nat) : Nat × Nat :=
  (List.range' (pos - 4096) (pos - (pos - 4096))).foldl
    (fun best i =>
      let len := matchLen input i pos
      if best.1 < len then (len, pos - i) else best)
    (0, 0)

/-- The main `while (pos < input.length)` loop of `LZCompressor.compress`:
emit a `0xFF dist_hi dist_lo len` quadruplet when the best match has
length ≥ 3, otherwise emit the literal byte.  Each iteration advances `pos`
by at least 1, so any `fuel ≥ input.length - pos` reproduces the loop. -/
def compressBodyAux (input : List Nat) : Nat → Nat → List Nat
  | 0, _ => []
  | fuel + 1, pos =>
    if pos < input.length then
      if 3 ≤ (findMatch input pos).1 then
        255 :: (findMatch input pos).2 / 256 % 256 :: (findMatch input pos).2 % 256 ::
          (findMatch input pos).1 :: compressBodyAux input fuel (pos + (findMatch input pos).1)
      else
        input.getD pos 0 :: compressBodyAux input fuel (pos + 1)
    else []

/-- The compress token stream starting at cursor `pos`. -/
def compressBody (input : List Nat) (pos : Nat) : List Nat :=
  compressBodyAux input (input.length - pos) pos

/-- `LZCompressor.compress`: 4-byte big-endian original-length header
(`(len >> s) & 0xFF`), then the token stream. -/
def compress (input : List Nat) : List Nat :=
  input.length / 2 ^ 24 % 256 :: input.length / 2 ^ 16 % 256 ::
    input.length / 2 ^ 8 % 256 :: input.length % 256 :: compressBody input 0

/-- A JavaScript array read `out[j]` during the decompress copy loop:
out-of-range (including negative) indices yield `undefined`, which the final
`new Uint8Array(...)` coercion turns into `0`. -/
def jsGet (out : List Nat) (j : Int) : Nat :=
  if 0 ≤ j ∧ j < out.length then out.getD j.toNat 0 else 0

/-- The copy loop of `LZCompressor.decompress`:
`for (i = 0; i < length; i++) output.push(output[matchStart + i])`,
reading freshly pushed bytes when the match overlaps the cursor. -/
def copyLoop (out : List Nat) (src : Int) : Nat → List Nat
  | 0 => out
  | n + 1 => copyLoop (out ++ [jsGet out src]) (src + 1) n

/-- The `while (pos < input.length && output.length < originalSize)` loop of
`LZCompressor.decompress`.  A `0xFF` byte is a match marker only when at
least three further bytes exist (`pos + 3 < input.length`); otherwise it is
taken as a literal.  Each iteration consumes at least one stream byte, so
any `fuel ≥ stream.length` reproduces the loop. -/
def decompLoopAux (orig : Nat) : Nat → List Nat → List Nat → List Nat
  | 0, _, out => out
  | fuel + 1, stream, out =>
    match stream with
    | [] => out
    | b :: rest =>
      if orig ≤ out.length then out
      else if b = 255 ∧ 3 ≤ rest.length then
        decompLoopAux orig fuel (rest.drop 3)
          (copyLoop out ((out.length : Int) - (rest.getD 0 0 * 256 + rest.getD 1 0))
            (rest.getD 2 0))
      else decompLoopAux orig fuel rest (out ++ [b])

/-- The decompress token loop on a whole stream. -/
def decompLoop (orig : Nat) (stream out : List Nat) : List Nat :=
  decompLoopAux orig stream.length stream out

/-- The original-size header read of `LZCompressor.decompress`:
`(input[0] << 24) | (input[1] << 16) | (input[2] << 8) | input[3]`.  For
headers with `input[0] < 128` (all declared sizes below `2^31`, which covers
everything `compress` emits for inputs shorter than `2^31` bytes) the
JavaScript 32-bit `|` arithmetic coincides with this sum. -/
def readHeader (data : List Nat) : Nat :=
  data.getD 0 0 * 2 ^ 24 + data.getD 1 0 * 2 ^ 16 + data.getD 2 0 * 2 ^ 8 + data.getD 3 0

/-- `LZCompressor.decompress`: skip the 4 header bytes, run the token loop,
and return `output.slice(0, originalSize)`. -/
def decompress (data : List Nat) : List Nat :=
  (decompLoop (readHeader data) (data.drop 4) []).take (readHeader data)

/-! ## Integrity (`calculateChecksum`, `crc16`) -/

/-- `calculateChecksum`: additive 16-bit checksum,
`checksum = (checksum + data[i]) & 0xFFFF` over all bytes. -/
def calculateChecksum (data : List Nat) : Nat :=
  data.foldl (fun c b => (c + b) &&& 0xFFFF) 0

/-- One bit-round of `crc16`: shift right, XOR `0xA001` when the low bit was set. -/
def crcRound (c : Nat) : Nat :=
  if c &&& 1 = 1 then (c >>> 1) ^^^ 0xA001 else c >>> 1

/-- One byte-step of `crc16`: XOR in the byte then run eight bit-rounds. -/
def crcByte (c b : Nat) : Nat := crcRound^[8] (c ^^^ b)

/-- `crc16`: CRC-16 with polynomial `0xA001`, initial value `0xFFFF`, no final XOR. -/
def crc16 (data : List Nat) : Nat := data.foldl crcByte 0xFFFF

/-- The integrity comparison of `reconstructFile`: the status stays
`Verified` unless `fileMetadata.checksum` is truthy (non-zero) *and*
differs from the recomputed checksum. -/
def integrityVerified (metaChecksum : Nat) (bytes : List Nat) : Bool :=
  if metaChecksum ≠ 0 ∧ metaChecksum ≠ calculateChecksum bytes then false else true

/-! ## Calibration (`analyzeCalibrationData`)

Magnitudes are modelled as rationals (the JavaScript source uses IEEE
doubles; only ordering and emptiness matter to the claims settled here).
There is no error return anywhere in the source: an empty candidate list
makes `freqBins[0].freq` throw a `TypeError`, modelled as `none`. -/

structure CalibConfig where
  freqMin : Nat
  freqMax : Nat
  numChannels : Nat
  channelSpacing : Nat
  sampleRate : Nat

/-- The candidate base frequencies scanned by `analyzeCalibrationData`:
`for (freq = FREQ_MIN; freq <= FREQ_MAX - NUM_CHANNELS*CHANNEL_SPACING; freq += 50)`.
The guard is stated additively so that the JavaScript signed comparison
(where the bound may be negative) is modelled exactly. -/
def candidateBases (cfg : CalibConfig) : List Nat :=
  if cfg.freqMin + cfg.numChannels * cfg.channelSpacing ≤ cfg.freqMax then
    List.range' cfg.freqMin
      ((cfg.freqMax - cfg.numChannels * cfg.channelSpacing - cfg.freqMin) / 50 + 1) 50
  else []

/-- FFT bin index: `Math.floor(freq * bufferLength / (sampleRate / 2))`. -/
def binOf (cfg : CalibConfig) (bufferLength freq : Nat) : Nat :=
  freq * bufferLength / (cfg.sampleRate / 2)

/-- Per-bin average magnitude over all calibration samples
(`avgSpectrum[i] += sample[i] / samples.length`). -/
def avgSpectrum (samples : List (List Nat)) (bufferLength : Nat) : List ℚ :=
  (List.range bufferLength).map fun i =>
    (samples.map fun s => (s.getD i 0 : ℚ) / samples.length).sum

/-- Mean noise across the `numChannels` carrier bins implied by base
frequency `base` (`avgSpectrum[chBin] || 0`, missing bins read as 0). -/
def bandNoise (cfg : CalibConfig) (avg : List ℚ) (bufferLength base : Nat) : ℚ :=
  ((List.range cfg.numChannels).map fun ch =>
    avg.getD (binOf cfg bufferLength (base + ch * cfg.channelSpacing)) 0).sum /
    cfg.numChannels

/-- `analyzeCalibrationData`: average the sampled spectra, score every
candidate base, pick the lowest-noise base (the stable ascending sort
followed by `freqBins[0]` keeps the earliest candidate among ties, i.e. the
first strict minimum), and emit the `numChannels` contiguous carriers.
`none` models the `TypeError` thrown when `samples` is empty
(`samples[0].length`) or when no candidate exists (`freqBins[0].freq`);
the source has no `NoViableBand` — or any other — error path. -/
def analyzeCalibrationData (cfg : CalibConfig) (samples : List (List Nat)) :
    Option (List Nat) :=
  match samples with
  | [] => none
  | s0 :: _ =>
    let bufferLength := s0.length
    let avg := avgSpectrum samples bufferLength
    match candidateBases cfg with
    | [] => none
    | c :: cs =>
      let base := cs.foldl
        (fun best f =>
          if bandNoise cfg avg bufferLength f < bandNoise cfg avg bufferLength best then f
          else best) c
      some ((List.range cfg.numChannels).map fun i => base + i * cfg.channelSpacing)

/-! ## Channel interleaving (`transmitBinaryFSK` / `processReceivedBits`)

The sender distributes bits round-robin over `NUM_CHANNELS` streams
(`streams[i % NUM_CHANNELS] += binaryString[i]`), right-pads every stream
with `'0'` to the longest stream's length (`Math.max(...lengths)`), and then
emits one chord per symbol index, channels in ascending order.  The receiver
appends recovered bits to its bit stream in exactly that channel order. -/

/-- The stream assigned to channel `ch`: the bits of `s` whose position is
`≡ ch (mod n)`, in position order. -/
def channelStream (n : Nat) (s : List Bool) (ch : Nat) : List Bool :=
  ((List.range s.length).filter fun i => i % n == ch).map fun i => s.getD i false

/-- `Math.max(...streams.map(s => s.length))`. -/
def maxStreamLen (n : Nat) (s : List Bool) : Nat :=
  ((List.range n).map fun ch => (channelStream n s ch).length).foldl max 0

/-- Channel `ch` after right-padding with `'0'` to the longest stream. -/
def paddedStream (n : Nat) (s : List Bool) (ch : Nat) : List Bool :=
  channelStream n s ch ++
    List.replicate (maxStreamLen n s - (channelStream n s ch).length) false

/-- Reading the transmitted chords back slot by slot, channels in ascending
index — the bit order in which `processReceivedBits` receives them. -/
def readBack (n : Nat) (s : List Bool) : List Bool :=
  ((List.range (maxStreamLen n s)).map fun slot =>
    (List.range n).map fun ch => (paddedStream n s ch).getD slot false).flatten

/-! ## Generic character/bit sequence helpers (JavaScript string methods) -/

/-- `String.prototype.startsWith` on sequences. -/
def startsWithSeq {α : Type} [BEq α] : List α → List α → Bool
  | _, [] => true
  | [], _ :: _ => false
  | a :: s, b :: t => a == b && startsWithSeq s t

/-- `String.prototype.includes`: `pat` occurs somewhere in the sequence. -/
def containsSeq {α : Type} [BEq α] (pat : List α) : List α → Bool
  | [] => startsWithSeq [] pat
  | a :: t => startsWithSeq (a :: t) pat || containsSeq pat t

/-- `String.prototype.indexOf`, as an option instead of `-1`. -/
def findSeqIdx {α : Type} [BEq α] (pat : List α) : List α → Option Nat
  | [] => if pat.isEmpty then some 0 else none
  | a :: t =>
    if startsWithSeq (a :: t) pat then some 0
    else (findSeqIdx pat t).map (· + 1)

/-- `parseInt(byteBits, 2)` on 8 recovered bits (MSB first). -/
def bitsToNat (bits : List Bool) : Nat :=
  bits.foldl (fun n b => 2 * n + cond b 1 0) 0

/-! ## Receiver synchronizer (`processReceivedBits`) -/

/-- The receiver's demodulation state: the raw bit stream, the decoded
packet buffer, and the `syncDetected` flag (`Hunting` = `false`,
`Framed` = `true`). -/
structure DemodState where
  bitStream : List Bool
  packetBuffer : List Char
  syncDetected : Bool
deriving Repr, DecidableEq

/-- The delivery condition of `processReceivedBits` (lines 1606–1610 of the
source): the buffer contains NUL, or is longer than 10 and contains one of
the `META:`/`DATA:`/`END:` tags.  No record-terminator check appears. -/
def shouldDeliver (buf : List Char) : Bool :=
  containsSeq [Char.ofNat 0] buf ||
    (decide (10 < buf.length) &&
      (containsSeq "META:".toList buf || containsSeq "DATA:".toList buf ||
        containsSeq "END:".toList buf))

/-- Modelled from the spec: "`packet_buffer` contains NUL, or length>10 and
contains one of `META:`/`DATA:`/`END:` followed by a complete record
terminator".  The only record terminator in the protocol's vocabulary is the
NUL byte, so "tag followed by a complete record terminator" is read as: the
tag occurs and a NUL occurs after it. -/
def tagThenTerminator (tag : List Char) : List Char → Bool
  | [] => false
  | a :: t =>
    (startsWithSeq (a :: t) tag && containsSeq [Char.ofNat 0] ((a :: t).drop tag.length)) ||
      tagThenTerminator tag t

/-- Modelled from the spec: the delivery condition as the specification's
synchronization table states it (see `tagThenTerminator`). -/
def specShouldDeliver (buf : List Char) : Bool :=
  containsSeq [Char.ofNat 0] buf ||
    (decide (10 < buf.length) &&
      (tagThenTerminator "META:".toList buf || tagThenTerminator "DATA:".toList buf ||
        tagThenTerminator "END:".toList buf))

/-- The `while (bitStream.length >= 8)` loop of `processReceivedBits`:
consume 8 bits into a character, append it to the packet buffer, deliver and
reset on the delivery condition, then reset on buffer overflow (> 5000).
Note the loop keeps consuming after a delivery — the JavaScript `while` does
not re-check `syncDetected`.  Returns the final state and the packets
handed to `processPacket`, in order.  Each iteration consumes 8 bits, so
any `fuel ≥ bits.length` reproduces the `while`. -/
def framedLoopAux : Nat → List Bool → List Char → Bool → List (List Char) →
    DemodState × List (List Char)
  | 0, bits, buf, sync, acc => (⟨bits, buf, sync⟩, acc)
  | fuel + 1, bits, buf, sync, acc =>
    if 8 ≤ bits.length then
      let buf1 := buf ++ [Char.ofNat (bitsToNat (bits.take 8))]
      let d := shouldDeliver buf1
      let buf2 := if d then [] else buf1
      let sync2 := if d then false else sync
      let acc2 := if d then acc ++ [buf1] else acc
      let buf3 := if 5000 < buf2.length then [] else buf2
      let sync3 := if 5000 < buf2.length then false else sync2
      framedLoopAux fuel (bits.drop 8) buf3 sync3 acc2
    else (⟨bits, buf, sync⟩, acc)

/-- The framed byte loop on a whole bit stream. -/
def framedLoop (bits : List Bool) (buf : List Char) (sync : Bool)
    (acc : List (List Char)) : DemodState × List (List Char) :=
  framedLoopAux bits.length bits buf sync acc

/-- `'10101010'`. -/
def syncPattern : List Bool :=
  [true, false, true, false, true, false, true, false]

/-- `processReceivedBits`: append the non-null bits, hunt for the sync
pattern while `syncDetected` is false (keeping the last 100 bits when the
stream exceeds 1000), otherwise run the framed byte loop.  Returns the new
state and the delivered packets. -/
def processReceivedBits (st : DemodState) (bits : List (Option Bool)) :
    DemodState × List (List Char) :=
  let stream := st.bitStream ++ bits.filterMap id
  if st.syncDetected = false then
    match findSeqIdx syncPattern stream with
    | some idx => (⟨stream.drop (idx + 8), st.packetBuffer, true⟩, [])
    | none =>
      if 1000 < stream.length then
        (⟨stream.drop (stream.length - 100), st.packetBuffer, false⟩, [])
      else (⟨stream, st.packetBuffer, false⟩, [])
  else framedLoop stream st.packetBuffer true []

/-! ## Packet processing and the chunk store (`processPacket`) -/

/-- The whitespace class of `String.prototype.trim` (the code points the
packet strings can actually contain). -/
def jsWhitespace (c : Char) : Bool :=
  c == ' ' || c == '\t' || c == '\n' || c == '\r' || c == '\x0b' || c == '\x0c'

/-- `packet.trim()`. -/
def jsTrim (s : List Char) : List Char :=
  ((s.dropWhile jsWhitespace).reverse.dropWhile jsWhitespace).reverse

/-- Longest leading run of decimal digits. -/
def leadDigits : List Char → List Char
  | [] => []
  | c :: t => if c.isDigit then c :: leadDigits t else []

/-- Decimal value of a digit list. -/
def digitsToNat (ds : List Char) : Nat :=
  ds.foldl (fun n c => 10 * n + (c.toNat - 48)) 0

/-- `parseInt(s)` (radix 10): skip leading whitespace, optional sign, then
the longest digit run; `none` models `NaN`. -/
def parseIntJS (s : List Char) : Option Int :=
  match s.dropWhile jsWhitespace with
  | '-' :: rest =>
    if leadDigits rest = [] then none else some (-(digitsToNat (leadDigits rest) : Int))
  | '+' :: rest =>
    if leadDigits rest = [] then none else some (digitsToNat (leadDigits rest) : Int)
  | rest =>
    if leadDigits rest = [] then none else some (digitsToNat (leadDigits rest) : Int)

/-- The receiver's chunk store (`receivedChunks`, a JavaScript `Map`):
insertion-ordered key/value pairs with unique keys. -/
abbrev ChunkStore := List (Int × List Char)

/-- `receivedChunks.has(k)`. -/
def storeHas (store : ChunkStore) (k : Int) : Bool :=
  store.any fun e => e.1 == k

/-- `receivedChunks.get(k)`. -/
def storeGet (store : ChunkStore) (k : Int) : Option (List Char) :=
  (store.find? fun e => e.1 == k).map (·.2)

/-- The parsing pipeline of `processPacket` up to the chunk-store access:
strip NULs, trim, require length ≥ 5, dispatch on the `DATA:` tag, split the
rest on `':'`, parse the decimal index (`isNaN` ⇒ `none`), and rejoin the
payload.  `none` for any packet that does not reach `receivedChunks.set`. -/
def parseDataPacket (pkt : List Char) : Option (Int × List Char) :=
  let p := jsTrim (pkt.filter fun c => c != Char.ofNat 0)
  if p.length < 5 then none
  else if startsWithSeq p "META:".toList then none
  else if startsWithSeq p "DATA:".toList then
    let parts := (p.drop 5).splitOn ':'
    if 2 ≤ parts.length then
      match parseIntJS (parts.getD 0 []) with
      | some idx => some (idx, List.intercalate [':'] (parts.drop 1))
      | none => none
    else none
  else none

/-- The chunk-store effect of `processPacket`: record the payload only when
the index parses and is not already present (`!isNaN(chunkIdx) &&
!receivedChunks.has(chunkIdx)`); otherwise leave the store unchanged. -/
def processPacketStore (store : ChunkStore) (pkt : List Char) : ChunkStore :=
  match parseDataPacket pkt with
  | some (idx, payload) =>
    if storeHas store idx then store else store ++ [(idx, payload)]
  | none => store

/-- Processing a sequence of delivered packets in order. -/
def processPackets (store : ChunkStore) (pkts : List (List Char)) : ChunkStore :=
  pkts.foldl processPacketStore store

/-- The payload of the first packet in `pkts` that reaches the store with
index `idx` (the specification's "first wins"). -/
def firstDataPayload (pkts : List (List Char)) (idx : Int) : Option (List Char) :=
  pkts.findSome? fun p =>
    match parseDataPacket p with
    | some (i, v) => if i == idx then some v else none
    | none => none

/-! ## Binary framing of packet strings (`encodeToBinary`, byte regrouping) -/

/-- `n.toString(2)`: binary digits, MSB first, `"0"` for zero.  The value
halves every step, so any `fuel ≥ n` reproduces the recursion. -/
def natToBitsAux : Nat → Nat → List Bool
  | 0, n => [n == 1]
  | fuel + 1, n =>
    if n < 2 then [n == 1] else natToBitsAux fuel (n / 2) ++ [n % 2 == 1]

/-- `n.toString(2)` as a bit list. -/
def natToBits (n : Nat) : List Bool :=
  natToBitsAux n n

/-- One character of `encodeToBinary`:
`message.charCodeAt(i).toString(2).padStart(8, '0')`.  `padStart` never
truncates, so a code point ≥ 256 contributes more than 8 bits. -/
def charBits (c : Nat) : List Bool :=
  List.replicate (8 - (natToBits c).length) false ++ natToBits c

/-- `encodeToBinary(message)` over the UTF-16 code units of the packet string. -/
def encodeToBinary (s : List Nat) : List Bool :=
  (s.map charBits).flatten

/-- The receiver's fixed 8-bit regrouping (the `slice(0, 8)` /
`parseInt(byteBits, 2)` loop of `processReceivedBits`; incomplete trailing
groups are dropped).  Each step consumes 8 bits, so any
`fuel ≥ bits.length` reproduces it. -/
def decode8Aux : Nat → List Bool → List Nat
  | 0, _ => []
  | fuel + 1, bits =>
    if 8 ≤ bits.length then bitsToNat (bits.take 8) :: decode8Aux fuel (bits.drop 8)
    else []

/-- The byte regrouping on a whole bit stream. -/
def decode8 (bits : List Bool) : List Nat :=
  decode8Aux bits.length bits

/-! # Theorems -/

/-! ## Checksum arithmetic -/

theorem and_ffff (n : Nat) : n &&& 0xFFFF = n % 2 ^ 16 := by
  have h := Nat.and_pow_two_sub_one_eq_mod n 16
  norm_num at h ⊢
  exact h

theorem checksum_foldl (l : List Nat) :
    ∀ c : Nat, c < 2 ^ 16 →
      l.foldl (fun c b => (c + b) &&& 0xFFFF) c = (c + l.sum) % 2 ^ 16 := by
  induction l with
  | nil => intro c hc; simpa using (Nat.mod_eq_of_lt hc).symm
  | cons b t ih =>
    intro c hc
    simp only [List.foldl_cons, List.sum_cons]
    rw [and_ffff, ih _ (Nat.mod_lt _ (by norm_num)), Nat.mod_add_mod]
    ring_nf

theorem calculateChecksum_eq_sum_mod (b : List Nat) :
    calculateChecksum b = b.sum % 2 ^ 16 := by
  unfold calculateChecksum
  rw [checksum_foldl b 0 (by norm_num), Nat.zero_add]

/-- C2 (counterexample): the claimed seed values fail on
`b = [0x48,0x65,0x6C,0x6C,0x6F]` ("Hello"): `calculateChecksum b` is not
`0x01FE` and `crc16 b` is not `0xD26E`.  The actual values are
`0x01F4 = 500` and `0xF377`, and the embedded `crc16` reproduces the
standard CRC-16/MODBUS check value `0x4B37` on `"123456789"`. -/
theorem hello_checksum_crc_counterexample :
    calculateChecksum [0x48, 0x65, 0x6C, 0x6C, 0x6F] ≠ 0x01FE ∧
    crc16 [0x48, 0x65, 0x6C, 0x6C, 0x6F] ≠ 0xD26E ∧
    calculateChecksum [0x48, 0x65, 0x6C, 0x6C, 0x6F] = 0x01F4 ∧
    crc16 [0x48, 0x65, 0x6C, 0x6C, 0x6F] = 0xF377 ∧
    crc16 [0x31, 0x32, 0x33, 0x34, 0x35, 0x36, 0x37, 0x38, 0x39] = 0x4B37 := by
  refine ⟨by decide, by decide, by decide, by decide, by decide⟩

/-- C2 (amended): `calculateChecksum b` is the additive sum of the bytes of
`b` modulo `2^16` for every byte list; on `"Hello"` its value is `0x01F4`
and `crc16` yields `0xF377`; `crc16` of the empty sequence is `0xFFFF`. -/
theorem checksum_crc_amended :
    (∀ b : List Nat, calculateChecksum b = b.sum % 2 ^ 16) ∧
    calculateChecksum [0x48, 0x65, 0x6C, 0x6C, 0x6F] = 0x01F4 ∧
    crc16 [0x48, 0x65, 0x6C, 0x6C, 0x6F] = 0xF377 ∧
    crc16 [] = 0xFFFF := by
  refine ⟨calculateChecksum_eq_sum_mod, by decide, by decide, by decide⟩

/-! ## C9: a zero metadata checksum skips verification -/

/-- C9: `reconstructFile` guards the integrity comparison by the truthiness
of `fileMetadata.checksum`, so a metadata checksum of `0` — a value
`calculateChecksum` legitimately produces, e.g. on 257 `0xFF` bytes
followed by `0x01` — reports `Verified` for *every* reconstructed byte
sequence, including corrupted ones whose recomputed checksum differs. -/
theorem zero_checksum_reports_verified :
    (∀ bytes : List Nat, integrityVerified 0 bytes = true) ∧
    calculateChecksum (List.replicate 257 255 ++ [1]) = 0 ∧
    integrityVerified 0 [9, 9, 9] = true ∧
    calculateChecksum [9, 9, 9] ≠ 0 := by
  refine ⟨fun bytes => ?_, by decide, by decide, by decide⟩
  simp [integrityVerified]

/-! ## C7: decompress on exhausted input -/

/-- C7 (counterexample): the stream `[0,0,0,5,65]` declares 5 original
bytes but provides one literal; `decompress` returns the partial output
`[65]` — a non-empty result — instead of discarding the bytes produced up
to the fault or surfacing any error (no `CorruptStream`, or any other
error path, exists in `LZCompressor.decompress`). -/
theorem decompress_exhausted_counterexample :
    decompress [0, 0, 0, 5, 65] = [65] ∧ ([65] : List Nat) ≠ [] := by
  refine ⟨by decide, by decide⟩

/-- C7 (amended): the decompress loop stops as soon as the output length
reaches the header's declared original length; if the input is exhausted
first, the bytes produced so far are returned as they stand (truncated,
never longer than the declared length), with no error raised. -/
theorem decompress_truncation_amended :
    (∀ orig (stream out : List Nat), orig ≤ out.length → decompLoop orig stream out = out) ∧
    (∀ data : List Nat, (decompress data).length ≤ readHeader data) ∧
    decompress [0, 0, 0, 5, 65] = [65] := by
  refine ⟨fun orig stream out h => ?_, fun data => ?_, by decide⟩
  · cases stream with
    | nil => rfl
    | cons b rest => simp [decompLoop, decompLoopAux, h]
  · unfold decompress
    simp only [List.length_take]
    exact Nat.min_le_left _ _

/-- Witness for `decompress_truncation_amended`: its stop condition at a
concrete state where the output already holds the declared 2 bytes. -/
theorem decompress_truncation_amended_witness :
    decompLoop 2 [7] [1, 2] = [1, 2] :=
  decompress_truncation_amended.1 2 [7] [1, 2] (by decide)

/-! ## C1 (counterexample): the 0xFF literal collision -/

/-- C1 (counterexample): on `b = [0xFF, 0, 0, 0, 0]` compression emits the
literal byte `0xFF` followed by a literal `0` and a genuine match token;
decompression misreads the literal `0xFF` as a match marker and returns
`[1, 3]` ≠ `b`. -/
theorem lz_roundtrip_counterexample :
    decompress (compress [255, 0, 0, 0, 0]) = [1, 3] ∧
    ([1, 3] : List Nat) ≠ [255, 0, 0, 0, 0] := by
  refine ⟨by decide, by decide⟩


-- small list helpers
theorem getD_take (l : List Nat) (n i d : Nat) (h : i < n) :
    (l.take n).getD i d = l.getD i d := by
  rw [List.getD_eq_getElem?_getD, List.getD_eq_getElem?_getD, List.getElem?_take_of_lt h]

theorem take_succ_getD (l : List Nat) (n d : Nat) (h : n < l.length) :
    l.take (n + 1) = l.take n ++ [l.getD n d] := by
  rw [List.take_succ]
  congr 1
  rw [List.getElem?_eq_getElem h, List.getD_eq_getElem l d h]
  rfl

-- matchLen properties
theorem matchLenAux_spec (input : List Nat) (i pos : Nat) :
    ∀ fuel k, k ≤ matchLenAux input i pos fuel k ∧
      matchLenAux input i pos fuel k ≤ k + fuel ∧
      ∀ j, k ≤ j → j < matchLenAux input i pos fuel k →
        pos + j < input.length ∧ input.getD (i + j) 0 = input.getD (pos + j) 0 := by
  intro fuel
  induction fuel with
  | zero =>
    intro k
    have h0 : matchLenAux input i pos 0 k = k := rfl
    exact ⟨h0.ge, by rw [h0]; omega, fun j hj hlt => by rw [h0] at hlt; omega⟩
  | succ fuel ih =>
    intro k
    by_cases hg : pos + k < input.length ∧ input.getD (i + k) 0 = input.getD (pos + k) 0
    · have heq : matchLenAux input i pos (fuel + 1) k = matchLenAux input i pos fuel (k + 1) := by
        show (if pos + k < input.length ∧ input.getD (i + k) 0 = input.getD (pos + k) 0 then
          matchLenAux input i pos fuel (k + 1) else k) = matchLenAux input i pos fuel (k + 1)
        rw [if_pos hg]
      obtain ⟨h1, h2, h3⟩ := ih (k + 1)
      refine ⟨by omega, by omega, fun j hj hlt => ?_⟩
      rw [heq] at hlt
      rcases Nat.eq_or_lt_of_le hj with rfl | hlt2
      · exact hg
      · exact h3 j hlt2 hlt
    · have heq : matchLenAux input i pos (fuel + 1) k = k := by
        show (if pos + k < input.length ∧ input.getD (i + k) 0 = input.getD (pos + k) 0 then
          matchLenAux input i pos fuel (k + 1) else k) = k
        rw [if_neg hg]
      refine ⟨by omega, by omega, fun j hj hlt => absurd hlt (by omega)⟩

theorem matchLen_spec (input : List Nat) (i pos : Nat) :
    matchLen input i pos ≤ 18 ∧
    ∀ j, j < matchLen input i pos →
      pos + j < input.length ∧ input.getD (i + j) 0 = input.getD (pos + j) 0 := by
  obtain ⟨h1, h2, h3⟩ := matchLenAux_spec input i pos 18 0
  exact ⟨by simpa using h2, fun j hj => h3 j (Nat.zero_le j) hj⟩

-- generic first-argmax foldl lemma
theorem foldl_best_spec (f g : Nat → Nat) :
    ∀ (l : List Nat) (b : Nat × Nat),
      b.1 ≤ (l.foldl (fun best i => if best.1 < f i then (f i, g i) else best) b).1 ∧
      (∀ i ∈ l, f i ≤ (l.foldl (fun best i => if best.1 < f i then (f i, g i) else best) b).1) ∧
      ((l.foldl (fun best i => if best.1 < f i then (f i, g i) else best) b) = b ∨
        ∃ i₀ l₁ l₂, l = l₁ ++ i₀ :: l₂ ∧
          (l.foldl (fun best i => if best.1 < f i then (f i, g i) else best) b) = (f i₀, g i₀) ∧
          b.1 < f i₀ ∧ ∀ j ∈ l₁, f j < f i₀) := by
  intro l
  induction l with
  | nil => intro b; exact ⟨le_rfl, by simp, Or.inl rfl⟩
  | cons a t ih =>
    intro b
    by_cases ha : b.1 < f a
    · have heq : (a :: t).foldl (fun best i => if best.1 < f i then (f i, g i) else best) b =
          t.foldl (fun best i => if best.1 < f i then (f i, g i) else best) (f a, g a) := by
        simp [ha]
      obtain ⟨h1, h2, h3⟩ := ih (f a, g a)
      rw [heq]
      refine ⟨by omega, ?_, ?_⟩
      · intro i hi
        rcases List.mem_cons.mp hi with rfl | hi
        · exact h1
        · exact h2 i hi
      · rcases h3 with heqb | ⟨i₀, l₁, l₂, hsplit, hval, hlt, hall⟩
        · exact Or.inr ⟨a, [], t, rfl, heqb, ha, by simp⟩
        · refine Or.inr ⟨i₀, a :: l₁, l₂, by rw [hsplit]; rfl, hval, by omega, ?_⟩
          intro j hj
          rcases List.mem_cons.mp hj with rfl | hj
          · omega
          · exact hall j hj
    · have heq : (a :: t).foldl (fun best i => if best.1 < f i then (f i, g i) else best) b =
          t.foldl (fun best i => if best.1 < f i then (f i, g i) else best) b := by
        simp [ha]
      obtain ⟨h1, h2, h3⟩ := ih b
      rw [heq]
      refine ⟨h1, ?_, ?_⟩
      · intro i hi
        rcases List.mem_cons.mp hi with rfl | hi
        · omega
        · exact h2 i hi
      · rcases h3 with heqb | ⟨i₀, l₁, l₂, hsplit, hval, hlt, hall⟩
        · exact Or.inl heqb
        · refine Or.inr ⟨i₀, a :: l₁, l₂, by rw [hsplit]; rfl, hval, hlt, ?_⟩
          intro j hj
          rcases List.mem_cons.mp hj with rfl | hj
          · omega
          · exact hall j hj


/-- Structural description of `findMatch`: the reported length bounds every
candidate's match length, and when positive, the reported pair comes from
the *first* (smallest-index, i.e. farthest, largest-distance) window
position attaining that length. -/
theorem findMatch_spec (input : List Nat) (pos : Nat) :
    (∀ i, pos - 4096 ≤ i → i < pos → matchLen input i pos ≤ (findMatch input pos).1) ∧
    ((findMatch input pos) = (0, 0) ∨
      ∃ i₀, pos - 4096 ≤ i₀ ∧ i₀ < pos ∧
        matchLen input i₀ pos = (findMatch input pos).1 ∧
        (findMatch input pos).2 = pos - i₀ ∧
        ∀ j, pos - 4096 ≤ j → j < i₀ → matchLen input j pos < (findMatch input pos).1) := by
  have hcnt : (pos - 4096) + (pos - (pos - 4096)) = pos := by omega
  obtain ⟨h1, h2, h3⟩ := foldl_best_spec (fun i => matchLen input i pos) (fun i => pos - i)
    (List.range' (pos - 4096) (pos - (pos - 4096))) (0, 0)
  constructor
  · intro i hi1 hi2
    exact h2 i (List.mem_range'_1.mpr ⟨hi1, by omega⟩)
  · rcases h3 with heq | ⟨i₀, l₁, l₂, hsplit, hval, hpos, hall⟩
    · exact Or.inl (by rw [findMatch]; exact heq)
    · have hmem : i₀ ∈ List.range' (pos - 4096) (pos - (pos - 4096)) := by
        rw [hsplit]; exact List.mem_append.mpr (Or.inr (List.mem_cons_self _ _))
      obtain ⟨hb1, hb2⟩ := List.mem_range'_1.mp hmem
      refine Or.inr ⟨i₀, hb1, by omega, ?_, ?_, ?_⟩
      · rw [findMatch, hval]
      · rw [findMatch, hval]
      · intro j hj1 hj2
        have hjmem : j ∈ List.range' (pos - 4096) (pos - (pos - 4096)) := by
          rw [List.mem_range'_1]
          constructor
          · exact hj1
          · omega
        have hsorted := List.pairwise_lt_range' (pos - 4096) (pos - (pos - 4096)) 1
        rw [hsplit] at hjmem hsorted
        rw [List.pairwise_append] at hsorted
        rcases List.mem_append.mp hjmem with hjl | hjr
        · rw [findMatch, hval]
          exact hall j hjl
        · exfalso
          rcases List.mem_cons.mp hjr with rfl | hjr2
          · omega
          · have := (List.pairwise_cons.mp hsorted.2.1).1 j hjr2
            omega


/-- The decompress copy loop reproduces the matched segment: starting from
`output = input.take pos` and `matchStart = pos - D`, copying `L` bytes
whose sources equal the targets extends the output to `input.take (pos+L)`. -/
theorem copyLoop_take (input : List Nat) (D : Nat) (hD : 1 ≤ D) :
    ∀ (L pos : Nat), D ≤ pos → pos + L ≤ input.length →
      (∀ k, k < L → input.getD (pos - D + k) 0 = input.getD (pos + k) 0) →
      copyLoop (input.take pos) ((pos : Int) - D) L = input.take (pos + L) := by
  intro L
  induction L with
  | zero => intro pos _ _ _; rfl
  | succ n ih =>
    intro pos hDpos hlen hmatch
    have hposlen : pos < input.length := by omega
    have hget : jsGet (input.take pos) ((pos : Int) - D) = input.getD pos 0 := by
      unfold jsGet
      have hlt : ((pos : Int) - D) < (input.take pos).length := by
        rw [List.length_take]
        have : (pos : Int) - D < pos := by omega
        have hmin : min pos input.length = pos := by omega
        rw [hmin]
        exact this
      rw [if_pos ⟨by omega, hlt⟩, Int.toNat_sub, getD_take _ _ _ _ (by omega)]
      have := hmatch 0 (by omega)
      simpa using this
    have hstep : copyLoop (input.take pos) ((pos : Int) - D) (n + 1) =
        copyLoop (input.take pos ++ [input.getD pos 0]) ((pos : Int) - D + 1) n := by
      rw [show copyLoop (input.take pos) ((pos : Int) - D) (n + 1) =
        copyLoop (input.take pos ++ [jsGet (input.take pos) ((pos : Int) - D)])
          (((pos : Int) - D) + 1) n from rfl, hget]
    rw [hstep, ← take_succ_getD input pos 0 hposlen,
      show ((pos : Int) - D + 1) = ((pos + 1 : Nat) : Int) - D by push_cast; ring]
    have hres := ih (pos + 1) (by omega) (by omega) ?_
    · rw [hres]
      congr 1
      omega
    · intro k hk
      have h1 : pos + 1 - D + k = pos - D + (k + 1) := by omega
      have h2 : pos + 1 + k = pos + (k + 1) := by omega
      rw [h1, h2]
      exact hmatch (k + 1) (by omega)


/-- `compressBodyAux` ignores extra fuel: any two budgets covering the
remaining input agree. -/
theorem compressBodyAux_fuel (input : List Nat) :
    ∀ f1 f2 pos, input.length - pos ≤ f1 → input.length - pos ≤ f2 →
      compressBodyAux input f1 pos = compressBodyAux input f2 pos := by
  intro f1
  induction f1 with
  | zero =>
    intro f2 pos h1 h2
    have hpl : ¬ pos < input.length := by omega
    cases f2 with
    | zero => rfl
    | succ f2 =>
      show compressBodyAux input 0 pos =
        (if pos < input.length then _ else [])
      rw [if_neg hpl]
      rfl
  | succ f1 ih =>
    intro f2 pos h1 h2
    by_cases hpl : pos < input.length
    · cases f2 with
      | zero => omega
      | succ f2 =>
        show (if pos < input.length then
            if 3 ≤ (findMatch input pos).1 then
              255 :: (findMatch input pos).2 / 256 % 256 :: (findMatch input pos).2 % 256 ::
                (findMatch input pos).1 :: compressBodyAux input f1 (pos + (findMatch input pos).1)
            else input.getD pos 0 :: compressBodyAux input f1 (pos + 1)
          else []) =
          (if pos < input.length then
            if 3 ≤ (findMatch input pos).1 then
              255 :: (findMatch input pos).2 / 256 % 256 :: (findMatch input pos).2 % 256 ::
                (findMatch input pos).1 :: compressBodyAux input f2 (pos + (findMatch input pos).1)
            else input.getD pos 0 :: compressBodyAux input f2 (pos + 1)
          else [])
        rw [if_pos hpl, if_pos hpl]
        by_cases h3 : 3 ≤ (findMatch input pos).1
        · rw [if_pos h3, if_pos h3, ih f2 (pos + (findMatch input pos).1) (by omega) (by omega)]
        · rw [if_neg h3, if_neg h3, ih f2 (pos + 1) (by omega) (by omega)]
    · cases f2 with
      | zero =>
        show (if pos < input.length then _ else []) = compressBodyAux input 0 pos
        rw [if_neg hpl]
        rfl
      | succ f2 =>
        show (if pos < input.length then _ else []) =
          (if pos < input.length then _ else [])
        rw [if_neg hpl, if_neg hpl]

/-- One-step unfolding of `compressBody`, independent of the stored fuel. -/
theorem compressBody_eq (input : List Nat) (pos : Nat) :
    compressBody input pos =
      if pos < input.length then
        if 3 ≤ (findMatch input pos).1 then
          255 :: (findMatch input pos).2 / 256 % 256 :: (findMatch input pos).2 % 256 ::
            (findMatch input pos).1 :: compressBody input (pos + (findMatch input pos).1)
        else input.getD pos 0 :: compressBody input (pos + 1)
      else [] := by
  by_cases hpl : pos < input.length
  · have hfuel : input.length - pos = (input.length - pos - 1) + 1 := by omega
    unfold compressBody
    rw [hfuel]
    show (if pos < input.length then
        if 3 ≤ (findMatch input pos).1 then
          255 :: (findMatch input pos).2 / 256 % 256 :: (findMatch input pos).2 % 256 ::
            (findMatch input pos).1 ::
              compressBodyAux input (input.length - pos - 1) (pos + (findMatch input pos).1)
        else input.getD pos 0 :: compressBodyAux input (input.length - pos - 1) (pos + 1)
      else []) = _
    rw [if_pos hpl, if_pos hpl]
    by_cases h3 : 3 ≤ (findMatch input pos).1
    · rw [if_pos h3, if_pos h3,
        compressBodyAux_fuel input (input.length - pos - 1)
          (input.length - (pos + (findMatch input pos).1)) (pos + (findMatch input pos).1)
          (by omega) (by omega)]
    · rw [if_neg h3, if_neg h3,
        compressBodyAux_fuel input (input.length - pos - 1) (input.length - (pos + 1)) (pos + 1)
          (by omega) (by omega)]
  · unfold compressBody
    have h0 : input.length - pos = 0 := by omega
    rw [h0, if_neg hpl]
    rfl


/-- `decompLoopAux` ignores extra fuel: any two budgets covering the stream
length agree. -/
theorem decompLoopAux_fuel (orig : Nat) :
    ∀ f1 f2 (stream out : List Nat), stream.length ≤ f1 → stream.length ≤ f2 →
      decompLoopAux orig f1 stream out = decompLoopAux orig f2 stream out := by
  intro f1
  induction f1 with
  | zero =>
    intro f2 stream out h1 h2
    have : stream = [] := List.length_eq_zero.mp (by omega)
    subst this
    cases f2 with
    | zero => rfl
    | succ f2 => rfl
  | succ f1 ih =>
    intro f2 stream out h1 h2
    cases stream with
    | nil =>
      cases f2 with
      | zero => rfl
      | succ f2 => rfl
    | cons b rest =>
      cases f2 with
      | zero => simp at h2
      | succ f2 =>
        show (if orig ≤ out.length then out
          else if b = 255 ∧ 3 ≤ rest.length then
            decompLoopAux orig f1 (rest.drop 3)
              (copyLoop out ((out.length : Int) - (rest.getD 0 0 * 256 + rest.getD 1 0))
                (rest.getD 2 0))
          else decompLoopAux orig f1 rest (out ++ [b])) =
          (if orig ≤ out.length then out
          else if b = 255 ∧ 3 ≤ rest.length then
            decompLoopAux orig f2 (rest.drop 3)
              (copyLoop out ((out.length : Int) - (rest.getD 0 0 * 256 + rest.getD 1 0))
                (rest.getD 2 0))
          else decompLoopAux orig f2 rest (out ++ [b]))
        by_cases ho : orig ≤ out.length
        · rw [if_pos ho, if_pos ho]
        · rw [if_neg ho, if_neg ho]
          by_cases hm : b = 255 ∧ 3 ≤ rest.length
          · rw [if_pos hm, if_pos hm,
              ih f2 (rest.drop 3) _ (by simp at h1 ⊢; omega) (by simp at h2 ⊢; omega)]
          · rw [if_neg hm, if_neg hm, ih f2 rest _ (by simp at h1 ⊢; omega) (by simp at h2 ⊢; omega)]

/-- One-step unfolding of `decompLoop` on a cons stream. -/
theorem decompLoop_cons (orig b : Nat) (rest out : List Nat) :
    decompLoop orig (b :: rest) out =
      if orig ≤ out.length then out
      else if b = 255 ∧ 3 ≤ rest.length then
        decompLoop orig (rest.drop 3)
          (copyLoop out ((out.length : Int) - (rest.getD 0 0 * 256 + rest.getD 1 0))
            (rest.getD 2 0))
      else decompLoop orig rest (out ++ [b]) := by
  unfold decompLoop
  show (if orig ≤ out.length then out
      else if b = 255 ∧ 3 ≤ rest.length then
        decompLoopAux orig rest.length (rest.drop 3)
          (copyLoop out ((out.length : Int) - (rest.getD 0 0 * 256 + rest.getD 1 0))
            (rest.getD 2 0))
      else decompLoopAux orig rest.length rest (out ++ [b])) = _
  by_cases ho : orig ≤ out.length
  · rw [if_pos ho, if_pos ho]
  · rw [if_neg ho, if_neg ho]
    by_cases hm : b = 255 ∧ 3 ≤ rest.length
    · rw [if_pos hm, if_pos hm,
        decompLoopAux_fuel orig rest.length (rest.drop 3).length (rest.drop 3) _
          (by simp) (by simp)]
    · rw [if_neg hm, if_neg hm]


/-- Decompression inverts the compress token stream byte-for-byte on
0xFF-free inputs: starting at any cursor with the already-produced output
`input.take pos`, running the decompress loop on the remaining tokens
reconstructs all of `input`. -/
theorem decompLoop_compressBody (input : List Nat) (h255 : ∀ x ∈ input, x ≠ 255) :
    ∀ n pos, input.length - pos ≤ n → pos ≤ input.length →
      decompLoop input.length (compressBody input pos) (input.take pos) = input := by
  intro n
  induction n with
  | zero =>
    intro pos h1 h2
    have hpos : pos = input.length := by omega
    subst hpos
    rw [compressBody_eq, if_neg (lt_irrefl _), List.take_length]
    rfl
  | succ n ih =>
    intro pos h1 h2
    by_cases hpl : pos < input.length
    · have htklen : (input.take pos).length = pos := by
        rw [List.length_take]; omega
      have hnotfull : ¬ input.length ≤ (input.take pos).length := by rw [htklen]; omega
      rw [compressBody_eq, if_pos hpl]
      by_cases h3 : 3 ≤ (findMatch input pos).1
      · rw [if_pos h3]
        obtain ⟨hmax, hcase⟩ := findMatch_spec input pos
        rcases hcase with heq0 | ⟨i₀, hi1, hi2, hieq, hdeq, hfirst⟩
        · rw [heq0] at h3; simp at h3
        obtain ⟨hml18, hmlspec⟩ := matchLen_spec input i₀ pos
        have hLpos : 1 ≤ (findMatch input pos).1 := by omega
        have hD1 : 1 ≤ (findMatch input pos).2 := by omega
        have hDpos : (findMatch input pos).2 ≤ pos := by omega
        have hD4096 : (findMatch input pos).2 ≤ 4096 := by omega
        have hlenL : pos + (findMatch input pos).1 ≤ input.length := by
          have := hmlspec ((findMatch input pos).1 - 1) (by omega)
          omega
        have hmatch : ∀ k, k < (findMatch input pos).1 →
            input.getD (pos - (findMatch input pos).2 + k) 0 = input.getD (pos + k) 0 := by
          intro k hk
          have hi0 : pos - (findMatch input pos).2 = i₀ := by omega
          rw [hi0]
          exact (hmlspec k (by omega)).2
        rw [decompLoop_cons, if_neg hnotfull]
        have hguard : (255 : Nat) = 255 ∧ 3 ≤ ((findMatch input pos).2 / 256 % 256 ::
            (findMatch input pos).2 % 256 :: (findMatch input pos).1 ::
            compressBody input (pos + (findMatch input pos).1)).length := by
          refine ⟨rfl, by simp⟩
        rw [if_pos hguard]
        simp only [List.getD_cons_zero, List.getD_cons_succ, List.drop_succ_cons,
          List.drop_zero, htklen]
        have harith : ((((findMatch input pos).2 / 256 % 256 : Nat) : Int) * 256 +
            (((findMatch input pos).2 % 256 : Nat) : Int)) = (((findMatch input pos).2 : Nat) : Int) := by
          have hnat : (findMatch input pos).2 / 256 % 256 * 256 + (findMatch input pos).2 % 256 =
              (findMatch input pos).2 := by omega
          exact_mod_cast hnat
        rw [show ((pos : Int) - ((((findMatch input pos).2 / 256 % 256 : Nat) : Int) * 256 +
            (((findMatch input pos).2 % 256 : Nat) : Int))) = ((pos : Int) - (findMatch input pos).2)
          from by rw [harith]]
        rw [copyLoop_take input (findMatch input pos).2 hD1 (findMatch input pos).1 pos hDpos
          hlenL hmatch]
        exact ih (pos + (findMatch input pos).1) (by omega) (by omega)
      · rw [if_neg h3]
        have hb : input.getD pos 0 ≠ 255 := by
          rw [List.getD_eq_getElem input 0 hpl]
          exact h255 _ (List.getElem_mem hpl)
        rw [decompLoop_cons, if_neg hnotfull, if_neg (fun hc => hb hc.1),
          ← take_succ_getD input pos 0 hpl]
        exact ih (pos + 1) (by omega) (by omega)
    · have hpos : pos = input.length := by omega
      subst hpos
      rw [compressBody_eq, if_neg (lt_irrefl _), List.take_length]
      rfl


/-- C1 (amended): for every byte sequence `b` (bytes < 256, fewer than
`2^31` of them) that contains no `0xFF` byte,
`decompress (compress b) = b`. -/
theorem lz_roundtrip_of_no_ff (input : List Nat)
    (_hbytes : ∀ x ∈ input, x < 256) (h255 : ∀ x ∈ input, x ≠ 255)
    (hlen : input.length < 2 ^ 31) :
    decompress (compress input) = input := by
  have hdrop : (compress input).drop 4 = compressBody input 0 := rfl
  have hdr : readHeader (compress input) = input.length := by
    show input.length / 2 ^ 24 % 256 * 2 ^ 24 + input.length / 2 ^ 16 % 256 * 2 ^ 16 +
      input.length / 2 ^ 8 % 256 * 2 ^ 8 + input.length % 256 = input.length
    omega
  unfold decompress
  rw [hdrop, hdr]
  rw [show ([] : List Nat) = input.take 0 from rfl]
  rw [decompLoop_compressBody input h255 input.length 0 (by omega) (by omega), List.take_length]

/-- Witness for `lz_roundtrip_of_no_ff` at `b = "ABABABABAB"`. -/
theorem lz_roundtrip_of_no_ff_witness :
    decompress (compress [65, 66, 65, 66, 65, 66, 65, 66, 65, 66]) =
      [65, 66, 65, 66, 65, 66, 65, 66, 65, 66] :=
  lz_roundtrip_of_no_ff [65, 66, 65, 66, 65, 66, 65, 66, 65, 66]
    (by decide) (by decide) (by decide)


/-- C3 (counterexample): in `[1,2,3,9,1,2,3,8,1,2,3]` at cursor 8 the
maximal match length 3 is attained both at window position 0 (distance 8)
and at window position 4 (distance 4); the compress search keeps the first
(farthest) one and emits distance 8, not the smallest distance 4.  The full
compressed stream ends with the `(0xFF, 0, 8, 3)` token. -/
theorem findMatch_tie_counterexample :
    findMatch [1, 2, 3, 9, 1, 2, 3, 8, 1, 2, 3] 8 = (3, 8) ∧
    matchLen [1, 2, 3, 9, 1, 2, 3, 8, 1, 2, 3] 4 8 = 3 ∧
    (4 : Nat) < 8 ∧
    compress [1, 2, 3, 9, 1, 2, 3, 8, 1, 2, 3] =
      [0, 0, 0, 11, 1, 2, 3, 9, 255, 0, 4, 3, 8, 255, 0, 8, 3] := by
  refine ⟨by decide, by decide, by decide, by decide⟩

/-- C3 (amended): at every cursor position the emitted pair has the maximal
candidate match length, but ties are broken toward the *first* window
position in scan order — the farthest position, i.e. the **largest**
distance among the maximizers (the code updates only on
`length > matchLength`). -/
theorem findMatch_longest_farthest (input : List Nat) (pos : Nat) :
    (∀ i, pos - 4096 ≤ i → i < pos → matchLen input i pos ≤ (findMatch input pos).1) ∧
    (3 ≤ (findMatch input pos).1 →
      ∃ i₀, pos - 4096 ≤ i₀ ∧ i₀ < pos ∧
        matchLen input i₀ pos = (findMatch input pos).1 ∧
        (findMatch input pos).2 = pos - i₀ ∧
        ∀ j, pos - 4096 ≤ j → j < pos → matchLen input j pos = (findMatch input pos).1 →
          pos - j ≤ (findMatch input pos).2) := by
  obtain ⟨hmax, hcase⟩ := findMatch_spec input pos
  refine ⟨hmax, fun h3 => ?_⟩
  rcases hcase with heq0 | ⟨i₀, hi1, hi2, hieq, hdeq, hfirst⟩
  · rw [heq0] at h3; simp at h3
  refine ⟨i₀, hi1, hi2, hieq, hdeq, fun j hj1 hj2 hjeq => ?_⟩
  by_cases hj3 : j < i₀
  · exact absurd hjeq (Nat.ne_of_lt (hfirst j hj1 hj3))
  · omega

/-- Witness for `findMatch_longest_farthest` at the tie input and cursor 8:
position 4 is a candidate bounded by the reported length, and the reported
pair comes from the first maximizer. -/
theorem findMatch_longest_farthest_witness :
    matchLen [1, 2, 3, 9, 1, 2, 3, 8, 1, 2, 3] 4 8 ≤
      (findMatch [1, 2, 3, 9, 1, 2, 3, 8, 1, 2, 3] 8).1 ∧
    ∃ i₀, 8 - 4096 ≤ i₀ ∧ i₀ < 8 ∧
      matchLen [1, 2, 3, 9, 1, 2, 3, 8, 1, 2, 3] i₀ 8 =
        (findMatch [1, 2, 3, 9, 1, 2, 3, 8, 1, 2, 3] 8).1 ∧
      (findMatch [1, 2, 3, 9, 1, 2, 3, 8, 1, 2, 3] 8).2 = 8 - i₀ ∧
      ∀ j, 8 - 4096 ≤ j → j < 8 →
        matchLen [1, 2, 3, 9, 1, 2, 3, 8, 1, 2, 3] j 8 =
          (findMatch [1, 2, 3, 9, 1, 2, 3, 8, 1, 2, 3] 8).1 →
        8 - j ≤ (findMatch [1, 2, 3, 9, 1, 2, 3, 8, 1, 2, 3] 8).2 :=
  ⟨(findMatch_longest_farthest [1, 2, 3, 9, 1, 2, 3, 8, 1, 2, 3] 8).1 4 (by decide) (by decide),
   (findMatch_longest_farthest [1, 2, 3, 9, 1, 2, 3, 8, 1, 2, 3] 8).2 (by decide)⟩


/-- C4: there is no `NoViableBand` (or any) error path in the source.  On a
profile the range cannot accommodate (16 channels at 1000 Hz spacing in
2000–10000 Hz), `analyzeCalibrationData` builds an empty candidate list and
crashes reading `freqBins[0].freq` (modelled `none`); and in general the
call succeeds with a non-empty frequency list exactly when
`FREQ_MIN + NUM_CHANNELS·CHANNEL_SPACING ≤ FREQ_MAX`. -/
theorem calibration_no_viable_band_behavior :
    analyzeCalibrationData ⟨2000, 10000, 16, 1000, 44100⟩ [List.replicate 4096 0] = none ∧
    (∀ (cfg : CalibConfig) (samples : List (List Nat)), samples ≠ [] → 0 < cfg.numChannels →
      ((∃ l, analyzeCalibrationData cfg samples = some l ∧ l ≠ []) ↔
        cfg.freqMin + cfg.numChannels * cfg.channelSpacing ≤ cfg.freqMax)) := by
  constructor
  · rfl
  · intro cfg samples hs hN
    cases samples with
    | nil => exact absurd rfl hs
    | cons s0 rest =>
      constructor
      · rintro ⟨l, hl, _⟩
        by_contra hinf
        have hc : candidateBases cfg = [] := by
          unfold candidateBases
          rw [if_neg hinf]
        unfold analyzeCalibrationData at hl
        rw [hc] at hl
        simp at hl
      · intro hfeas
        have hne : candidateBases cfg ≠ [] := by
          unfold candidateBases
          rw [if_pos hfeas]
          have hlen : (List.range' cfg.freqMin
              ((cfg.freqMax - cfg.numChannels * cfg.channelSpacing - cfg.freqMin) / 50 + 1)
              50).length =
              (cfg.freqMax - cfg.numChannels * cfg.channelSpacing - cfg.freqMin) / 50 + 1 :=
            List.length_range' _ _ _
          intro hnil
          rw [hnil] at hlen
          simp at hlen
        obtain ⟨c, cs, hcons⟩ := List.exists_cons_of_ne_nil hne
        refine ⟨(List.range cfg.numChannels).map fun i =>
          (cs.foldl (fun best f =>
            if bandNoise cfg (avgSpectrum (s0 :: rest) s0.length) s0.length f <
                bandNoise cfg (avgSpectrum (s0 :: rest) s0.length) s0.length best then f
            else best) c) + i * cfg.channelSpacing, ?_, ?_⟩
        · unfold analyzeCalibrationData
          rw [hcons]
        · have hlen : ((List.range cfg.numChannels).map fun i =>
              (cs.foldl (fun best f =>
                if bandNoise cfg (avgSpectrum (s0 :: rest) s0.length) s0.length f <
                    bandNoise cfg (avgSpectrum (s0 :: rest) s0.length) s0.length best then f
                else best) c) + i * cfg.channelSpacing).length = cfg.numChannels := by
            rw [List.length_map, List.length_range]
          intro hnil
          rw [hnil] at hlen
          simp at hlen
          omega

/-- Witness for `calibration_no_viable_band_behavior`: a feasible toy
configuration on which the call returns a non-empty carrier list. -/
theorem calibration_no_viable_band_behavior_witness :
    ∃ l, analyzeCalibrationData ⟨0, 50, 1, 1, 8⟩ [[5, 5]] = some l ∧ l ≠ [] :=
  (calibration_no_viable_band_behavior.2 ⟨0, 50, 1, 1, 8⟩ [[5, 5]]
    (by decide) (by decide)).mpr (by decide)


/-- One-step unfolding of the framed loop when at least 8 bits are buffered. -/
theorem framedLoopAux_step (fuel : Nat) (bits : List Bool) (buf : List Char) (sync : Bool)
    (acc : List (List Char)) (h8 : 8 ≤ bits.length) :
    framedLoopAux (fuel + 1) bits buf sync acc =
      (if shouldDeliver (buf ++ [Char.ofNat (bitsToNat (bits.take 8))]) then
        framedLoopAux fuel (bits.drop 8) [] false
          (acc ++ [buf ++ [Char.ofNat (bitsToNat (bits.take 8))]])
      else
        framedLoopAux fuel (bits.drop 8)
          (if 5000 < (buf ++ [Char.ofNat (bitsToNat (bits.take 8))]).length then []
           else buf ++ [Char.ofNat (bitsToNat (bits.take 8))])
          (if 5000 < (buf ++ [Char.ofNat (bitsToNat (bits.take 8))]).length then false else sync)
          acc) := by
  show (if 8 ≤ bits.length then
      framedLoopAux fuel (bits.drop 8)
        (if 5000 < (if shouldDeliver (buf ++ [Char.ofNat (bitsToNat (bits.take 8))]) then []
            else buf ++ [Char.ofNat (bitsToNat (bits.take 8))]).length then []
         else (if shouldDeliver (buf ++ [Char.ofNat (bitsToNat (bits.take 8))]) then []
            else buf ++ [Char.ofNat (bitsToNat (bits.take 8))]))
        (if 5000 < (if shouldDeliver (buf ++ [Char.ofNat (bitsToNat (bits.take 8))]) then []
            else buf ++ [Char.ofNat (bitsToNat (bits.take 8))]).length then false
         else (if shouldDeliver (buf ++ [Char.ofNat (bitsToNat (bits.take 8))]) then false
            else sync))
        (if shouldDeliver (buf ++ [Char.ofNat (bitsToNat (bits.take 8))]) then
          acc ++ [buf ++ [Char.ofNat (bitsToNat (bits.take 8))]] else acc)
    else (⟨bits, buf, sync⟩, acc)) = _
  rw [if_pos h8]
  by_cases hd : shouldDeliver (buf ++ [Char.ofNat (bitsToNat (bits.take 8))])
  · simp only [hd, if_true, List.length_nil, ite_self]
  · simp only [if_neg hd]

/-- Exit of the framed loop when fewer than 8 bits are buffered. -/
theorem framedLoopAux_exit (fuel : Nat) (bits : List Bool) (buf : List Char) (sync : Bool)
    (acc : List (List Char)) (h8 : ¬ 8 ≤ bits.length) :
    framedLoopAux (fuel + 1) bits buf sync acc = (⟨bits, buf, sync⟩, acc) := by
  show (if 8 ≤ bits.length then
      framedLoopAux fuel (bits.drop 8)
        (if 5000 < (if shouldDeliver (buf ++ [Char.ofNat (bitsToNat (bits.take 8))]) then []
            else buf ++ [Char.ofNat (bitsToNat (bits.take 8))]).length then []
         else (if shouldDeliver (buf ++ [Char.ofNat (bitsToNat (bits.take 8))]) then []
            else buf ++ [Char.ofNat (bitsToNat (bits.take 8))]))
        (if 5000 < (if shouldDeliver (buf ++ [Char.ofNat (bitsToNat (bits.take 8))]) then []
            else buf ++ [Char.ofNat (bitsToNat (bits.take 8))]).length then false
         else (if shouldDeliver (buf ++ [Char.ofNat (bitsToNat (bits.take 8))]) then false
            else sync))
        (if shouldDeliver (buf ++ [Char.ofNat (bitsToNat (bits.take 8))]) then
          acc ++ [buf ++ [Char.ofNat (bitsToNat (bits.take 8))]] else acc)
    else (⟨bits, buf, sync⟩, acc)) = _
  rw [if_neg h8]


/-- C5 (counterexample): the buffer `"DATA:1:abcde"` (length 12) holds only
a tag plus a truncated record: it contains no NUL and no terminator of any
kind, yet the code's delivery condition fires (and the framed loop actually
delivers it after the next byte), while the specification's
terminator-qualified condition does not. -/
theorem delivery_terminator_counterexample :
    shouldDeliver "DATA:1:abcde".toList = true ∧
    specShouldDeliver "DATA:1:abcde".toList = false ∧
    containsSeq [Char.ofNat 0] "DATA:1:abcde".toList = false ∧
    (framedLoop (encodeToBinary [101]) "DATA:1:abcd".toList true []).2 =
      ["DATA:1:abcde".toList] := by
  refine ⟨by decide, by decide, by decide, by decide⟩

/-- C5 (amended): a packet is delivered exactly when the packet buffer
(after the newly decoded byte) contains a NUL byte, or its length exceeds
10 and it contains one of the `META:`/`DATA:`/`END:` tags — no record
terminator is required; on delivery the buffer is cleared and the
synchronizer returns to Hunting.  Part one states soundness over an entire
framed run: every packet handed to `processPacket` that is not already in
the accumulator satisfies that condition.  Part two characterises a single
8-bit iteration exactly. -/
theorem framed_delivery_no_terminator :
    (∀ (fuel : Nat) (bits : List Bool) (buf : List Char) (sync : Bool) (acc : List (List Char)),
      ∀ p ∈ (framedLoopAux fuel bits buf sync acc).2,
        p ∈ acc ∨ containsSeq [Char.ofNat 0] p = true ∨
          (10 < p.length ∧ (containsSeq "META:".toList p = true ∨
            containsSeq "DATA:".toList p = true ∨ containsSeq "END:".toList p = true))) ∧
    (∀ (bits : List Bool) (buf : List Char) (sync : Bool), bits.length = 8 →
      ((framedLoop bits buf sync []).2 =
        (if shouldDeliver (buf ++ [Char.ofNat (bitsToNat (bits.take 8))]) then
          [buf ++ [Char.ofNat (bitsToNat (bits.take 8))]] else [])) ∧
      (shouldDeliver (buf ++ [Char.ofNat (bitsToNat (bits.take 8))]) = true →
        (framedLoop bits buf sync []).1.packetBuffer = [] ∧
        (framedLoop bits buf sync []).1.syncDetected = false)) := by
  have hpart1 : ∀ (fuel : Nat) (bits : List Bool) (buf : List Char) (sync : Bool)
      (acc : List (List Char)),
      ∀ p ∈ (framedLoopAux fuel bits buf sync acc).2,
        p ∈ acc ∨ containsSeq [Char.ofNat 0] p = true ∨
          (10 < p.length ∧ (containsSeq "META:".toList p = true ∨
            containsSeq "DATA:".toList p = true ∨ containsSeq "END:".toList p = true)) := by
    intro fuel
    induction fuel with
    | zero => intro bits buf sync acc p hp; exact Or.inl hp
    | succ fuel ih =>
      intro bits buf sync acc p hp
      by_cases h8 : 8 ≤ bits.length
      · rw [framedLoopAux_step fuel bits buf sync acc h8] at hp
        by_cases hd : shouldDeliver (buf ++ [Char.ofNat (bitsToNat (bits.take 8))])
        · rw [if_pos hd] at hp
          rcases ih _ _ _ _ p hp with hin | hrest
          · rcases List.mem_append.mp hin with hin2 | hin2
            · exact Or.inl hin2
            · have hpB : p = buf ++ [Char.ofNat (bitsToNat (bits.take 8))] := by
                simpa using hin2
              subst hpB
              right
              unfold shouldDeliver at hd
              simp only [Bool.or_eq_true, Bool.and_eq_true, decide_eq_true_eq] at hd
              rcases hd with h | ⟨hlen, htags⟩
              · exact Or.inl h
              · refine Or.inr ⟨hlen, ?_⟩
                rcases htags with (h | h) | h
                · exact Or.inl h
                · exact Or.inr (Or.inl h)
                · exact Or.inr (Or.inr h)
          · exact Or.inr hrest
        · rw [if_neg hd] at hp
          rcases ih _ _ _ _ p hp with hin | hrest
          · exact Or.inl hin
          · exact Or.inr hrest
      · rw [framedLoopAux_exit fuel bits buf sync acc h8] at hp
        exact Or.inl hp
  refine ⟨hpart1, fun bits buf sync h8 => ?_⟩
  have hdrop : bits.drop 8 = [] := List.drop_eq_nil_of_le (by omega)
  have hstep : framedLoop bits buf sync [] = framedLoopAux 8 bits buf sync [] := by
    unfold framedLoop
    rw [h8]
  rw [hstep, show (8 : Nat) = 7 + 1 from rfl,
    framedLoopAux_step 7 bits buf sync [] (by omega)]
  by_cases hd : shouldDeliver (buf ++ [Char.ofNat (bitsToNat (bits.take 8))])
  · rw [if_pos hd, hdrop,
      framedLoopAux_exit 6 [] [] false _ (by decide), if_pos hd]
    exact ⟨rfl, fun _ => ⟨rfl, rfl⟩⟩
  · rw [if_neg hd, hdrop,
      framedLoopAux_exit 6 [] _ _ _ (by decide), if_neg hd]
    exact ⟨rfl, fun hc => absurd hc hd⟩

/-- Witness for `framed_delivery_no_terminator`: one concrete 8-bit
iteration (the byte `'e'` arriving on buffer `"DATA:1:abcd"`) delivering
with the buffer cleared. -/
theorem framed_delivery_no_terminator_witness :
    ((framedLoop (encodeToBinary [101]) "DATA:1:abcd".toList true []).2 =
      (if shouldDeliver ("DATA:1:abcd".toList ++
          [Char.ofNat (bitsToNat ((encodeToBinary [101]).take 8))]) then
        ["DATA:1:abcd".toList ++ [Char.ofNat (bitsToNat ((encodeToBinary [101]).take 8))]]
      else [])) ∧
    (framedLoop (encodeToBinary [101]) "DATA:1:abcd".toList true []).1.packetBuffer = [] :=
  ⟨(framed_delivery_no_terminator.2 (encodeToBinary [101]) "DATA:1:abcd".toList true
      (by decide)).1,
   ((framed_delivery_no_terminator.2 (encodeToBinary [101]) "DATA:1:abcd".toList true
      (by decide)).2 (by decide)).1⟩


/-- `storeHas` is definedness of `storeGet`. -/
theorem storeHas_eq_isSome (store : ChunkStore) (k : Int) :
    storeHas store k = (storeGet store k).isSome := by
  induction store with
  | nil => rfl
  | cons e t ih =>
    show (e.1 == k || storeHas t k) =
      (Option.map (·.2) (List.find? (fun x => x.1 == k) (e :: t))).isSome
    by_cases he : (e.1 == k) = true
    · rw [@List.find?_cons_of_pos _ (fun x => x.1 == k) e t he, he]
      simp
    · rw [@List.find?_cons_of_neg _ (fun x => x.1 == k) e t he]
      have heb : (e.1 == k) = false := by simpa using he
      rw [heb]
      simp only [Bool.false_or]
      exact ih

/-- `storeGet` over an appended single binding. -/
theorem storeGet_append_single (store : ChunkStore) (k idx : Int) (v : List Char) :
    storeGet (store ++ [(k, v)]) idx =
      match storeGet store idx with
      | some w => some w
      | none => if k == idx then some v else none := by
  show (Option.map (·.2) (List.find? (fun x => x.1 == idx) (store ++ [(k, v)]))) = _
  rw [List.find?_append]
  cases hf : List.find? (fun x => x.1 == idx) store with
  | none =>
    have hsg : storeGet store idx = none := by
      show (Option.map (·.2) (List.find? (fun x => x.1 == idx) store)) = none
      rw [hf]
      rfl
    rw [hsg]
    by_cases hk : (k == idx) = true
    · rw [@List.find?_cons_of_pos _ (fun x => x.1 == idx) (k, v) [] hk, hk]
      rfl
    · rw [@List.find?_cons_of_neg _ (fun x => x.1 == idx) (k, v) [] hk]
      have hkb : (k == idx) = false := by simpa using hk
      rw [hkb]
      rfl
  | some w =>
    have hsg : storeGet store idx = some w.2 := by
      show (Option.map (·.2) (List.find? (fun x => x.1 == idx) store)) = some w.2
      rw [hf]
      rfl
    rw [hsg]
    rfl

/-- A packet never overwrites an index that is already present. -/
theorem processPacketStore_preserves (store : ChunkStore) (pkt : List Char) (idx : Int)
    (h : storeHas store idx = true) :
    storeGet (processPacketStore store pkt) idx = storeGet store idx := by
  cases hp : parseDataPacket pkt with
  | none =>
    have hsame : processPacketStore store pkt = store := by
      unfold processPacketStore
      rw [hp]
    rw [hsame]
  | some iv =>
    obtain ⟨i, v⟩ := iv
    have heq : processPacketStore store pkt =
        (if storeHas store i then store else store ++ [(i, v)]) := by
      unfold processPacketStore
      rw [hp]
    rw [heq]
    by_cases hhas : storeHas store i = true
    · rw [if_pos hhas]
    · rw [if_neg hhas, storeGet_append_single]
      have hne : i ≠ idx := by
        intro he
        subst he
        exact hhas h
      cases hg : storeGet store idx with
      | some w => rfl
      | none =>
        rw [storeHas_eq_isSome, hg] at h
        simp at h

/-- Running a packet sequence: the stored payload at `idx` is the existing
binding if any, otherwise the payload of the first `DATA` packet carrying
`idx`. -/
theorem processPackets_get (pkts : List (List Char)) :
    ∀ (store : ChunkStore) (idx : Int),
      storeGet (processPackets store pkts) idx =
        match storeGet store idx with
        | some w => some w
        | none => firstDataPayload pkts idx := by
  induction pkts with
  | nil =>
    intro store idx
    have h0 : processPackets store [] = store := rfl
    rw [h0]
    cases hg : storeGet store idx <;> rfl
  | cons p ps ih =>
    intro store idx
    have hstep : processPackets store (p :: ps) =
        processPackets (processPacketStore store p) ps := rfl
    rw [hstep, ih]
    cases hp : parseDataPacket p with
    | none =>
      have hsame : processPacketStore store p = store := by
        unfold processPacketStore
        rw [hp]
      have hfirst : firstDataPayload (p :: ps) idx = firstDataPayload ps idx := by
        unfold firstDataPayload
        rw [List.findSome?_cons, hp]
      rw [hsame, hfirst]
    | some iv =>
      obtain ⟨i, v⟩ := iv
      have heq : processPacketStore store p =
          (if storeHas store i then store else store ++ [(i, v)]) := by
        unfold processPacketStore
        rw [hp]
      have hfirst : firstDataPayload (p :: ps) idx =
          (if i = idx then some v else firstDataPayload ps idx) := by
        unfold firstDataPayload
        rw [List.findSome?_cons, hp]
        by_cases he : i = idx
        · subst he
          simp
        · simp [he]
      rw [heq, hfirst]
      by_cases hhas : storeHas store i = true
      · rw [if_pos hhas]
        cases hg : storeGet store idx with
        | some w => rfl
        | none =>
          have hne : i ≠ idx := by
            intro he
            subst he
            rw [storeHas_eq_isSome, hg] at hhas
            simp at hhas
          rw [if_neg hne]
      · rw [if_neg hhas, storeGet_append_single]
        cases hg : storeGet store idx with
        | some w => rfl
        | none =>
          by_cases he : i = idx
          · subst he
            simp
          · simp [he]

/-- C8: each chunk index is written at most once.  Starting from the empty
store, after processing any sequence of delivered packets the stored
payload at an index is exactly the payload of the *first* `DATA` packet
carrying that index; and whenever an index is already present, processing
any further packet leaves its stored payload unchanged. -/
theorem chunk_store_first_wins :
    (∀ (pkts : List (List Char)) (idx : Int),
      storeGet (processPackets [] pkts) idx = firstDataPayload pkts idx) ∧
    (∀ (store : ChunkStore) (pkt : List Char) (idx : Int), storeHas store idx = true →
      storeGet (processPacketStore store pkt) idx = storeGet store idx) := by
  constructor
  · intro pkts idx
    rw [processPackets_get pkts [] idx]
    rfl
  · exact processPacketStore_preserves

/-- Witness for `chunk_store_first_wins`: a duplicate `DATA:1:` packet
leaves the stored payload for index 1 unchanged. -/
theorem chunk_store_first_wins_witness :
    storeGet (processPacketStore [((1 : Int), "abc".toList)] "DATA:1:xyz".toList) 1 =
      storeGet [((1 : Int), "abc".toList)] 1 :=
  chunk_store_first_wins.2 [((1 : Int), "abc".toList)] "DATA:1:xyz".toList 1 (by decide)


/-- `natToBitsAux` on small values. -/
theorem natToBitsAux_small (fuel n : Nat) (h : n < 2) :
    natToBitsAux fuel n = [n == 1] := by
  cases fuel with
  | zero => rfl
  | succ fuel =>
    show (if n < 2 then [n == 1] else natToBitsAux fuel (n / 2) ++ [n % 2 == 1]) = [n == 1]
    rw [if_pos h]

/-- Upper length bound: `n < 2^k` gives at most `max 1 k` binary digits. -/
theorem natToBitsAux_length_le (fuel : Nat) :
    ∀ n k, n ≤ fuel → n < 2 ^ k → 1 ≤ k → (natToBitsAux fuel n).length ≤ k := by
  induction fuel with
  | zero =>
    intro n k hn hk h1
    have hn0 : n = 0 := by omega
    subst hn0
    rw [natToBitsAux_small 0 0 (by omega)]
    simpa using h1
  | succ fuel ih =>
    intro n k hn hk h1
    by_cases h2 : n < 2
    · rw [natToBitsAux_small _ n h2]
      simpa using h1
    · have hstep : natToBitsAux (fuel + 1) n = natToBitsAux fuel (n / 2) ++ [n % 2 == 1] := by
        show (if n < 2 then [n == 1] else natToBitsAux fuel (n / 2) ++ [n % 2 == 1]) = _
        rw [if_neg h2]
      rw [hstep, List.length_append]
      have hk2 : 2 ≤ k := by
        by_contra hk2
        have : k = 1 := by omega
        subst this
        omega
      have hdiv : n / 2 < 2 ^ (k - 1) := by
        have h2k : 2 ^ k = 2 * 2 ^ (k - 1) := by
          rw [← pow_succ']
          congr 1
          omega
        omega
      have := ih (n / 2) (k - 1) (by omega) hdiv (by omega)
      simp only [List.length_cons, List.length_nil]
      omega

/-- Lower length bound: `2^k ≤ n` forces more than `k` binary digits. -/
theorem natToBitsAux_length_gt (fuel : Nat) :
    ∀ n k, n ≤ fuel → 2 ^ k ≤ n → k < (natToBitsAux fuel n).length := by
  induction fuel with
  | zero =>
    intro n k hn hk
    have : (1 : Nat) ≤ 2 ^ k := Nat.one_le_two_pow
    omega
  | succ fuel ih =>
    intro n k hn hk
    by_cases h2 : n < 2
    · rw [natToBitsAux_small _ n h2]
      have : k = 0 := by
        by_contra hk0
        have h1k : 1 ≤ k := by omega
        have : 2 ^ 1 ≤ 2 ^ k := Nat.pow_le_pow_right (by omega) h1k
        omega
      subst this
      simp
    · have hstep : natToBitsAux (fuel + 1) n = natToBitsAux fuel (n / 2) ++ [n % 2 == 1] := by
        show (if n < 2 then [n == 1] else natToBitsAux fuel (n / 2) ++ [n % 2 == 1]) = _
        rw [if_neg h2]
      rw [hstep, List.length_append]
      cases k with
      | zero => simp
      | succ k =>
        have hdiv : 2 ^ k ≤ n / 2 := by
          have h2k : 2 ^ (k + 1) = 2 * 2 ^ k := by rw [← pow_succ']
          omega
        have := ih (n / 2) k (by omega) hdiv
        simp only [List.length_cons, List.length_nil]
        omega

/-- Each character contributes exactly 8 bits iff its code point is < 256;
larger code points contribute strictly more. -/
theorem charBits_length (c : Nat) :
    (c < 256 → (charBits c).length = 8) ∧ (256 ≤ c → 8 < (charBits c).length) := by
  constructor
  · intro hc
    unfold charBits natToBits
    rw [List.length_append, List.length_replicate]
    have := natToBitsAux_length_le c c 8 le_rfl (by norm_num [hc]) (by norm_num)
    omega
  · intro hc
    unfold charBits natToBits
    rw [List.length_append, List.length_replicate]
    have := natToBitsAux_length_gt c c 8 le_rfl (by norm_num [hc])
    omega

/-- Eight is always a lower bound per character. -/
theorem charBits_length_ge (c : Nat) : 8 ≤ (charBits c).length := by
  unfold charBits
  rw [List.length_append, List.length_replicate]
  omega

/-- `bitsToNat` of any list is below `2 ^ length`. -/
theorem bitsToNat_lt (l : List Bool) : bitsToNat l < 2 ^ l.length := by
  suffices h : ∀ (l : List Bool) (a : Nat),
      l.foldl (fun n b => 2 * n + cond b 1 0) a < (a + 1) * 2 ^ l.length by
    have := h l 0
    simpa [bitsToNat] using this
  intro l
  induction l with
  | nil => intro a; simp
  | cons b t ih =>
    intro a
    have h1 := ih (2 * a + cond b 1 0)
    have h2 : (2 * a + cond b 1 0 + 1) * 2 ^ t.length ≤ (a + 1) * 2 ^ (t.length + 1) := by
      have hstep : 2 * a + cond b 1 0 + 1 ≤ 2 * (a + 1) := by
        have hb : cond b 1 0 ≤ 1 := by cases b <;> simp
        omega
      have h2p : (2 : Nat) ^ (t.length + 1) = 2 * 2 ^ t.length := by
        rw [pow_succ]
        ring
      rw [h2p]
      have := Nat.mul_le_mul_right (2 ^ t.length) hstep
      calc (2 * a + cond b 1 0 + 1) * 2 ^ t.length ≤ 2 * (a + 1) * 2 ^ t.length := this
        _ = (a + 1) * (2 * 2 ^ t.length) := by ring
    have hfold : (b :: t).foldl (fun n b => 2 * n + cond b 1 0) a =
        t.foldl (fun n b => 2 * n + cond b 1 0) (2 * a + cond b 1 0) := rfl
    rw [hfold, List.length_cons]
    exact lt_of_lt_of_le h1 h2

/-- Every byte the receiver's regrouping produces is below 256. -/
theorem decode8Aux_lt (fuel : Nat) :
    ∀ (bits : List Bool), ∀ x ∈ decode8Aux fuel bits, x < 256 := by
  induction fuel with
  | zero => intro bits x hx; simp [decode8Aux] at hx
  | succ fuel ih =>
    intro bits x hx
    by_cases h8 : 8 ≤ bits.length
    · have hstep : decode8Aux (fuel + 1) bits =
          bitsToNat (bits.take 8) :: decode8Aux fuel (bits.drop 8) := by
        show (if 8 ≤ bits.length then
          bitsToNat (bits.take 8) :: decode8Aux fuel (bits.drop 8) else []) = _
        rw [if_pos h8]
      rw [hstep] at hx
      rcases List.mem_cons.mp hx with rfl | hx2
      · have hlen : (bits.take 8).length = 8 := by
          rw [List.length_take]
          omega
        have := bitsToNat_lt (bits.take 8)
        rw [hlen] at this
        simpa using this
      · exact ih _ x hx2
    · have hstep : decode8Aux (fuel + 1) bits = [] := by
        show (if 8 ≤ bits.length then
          bitsToNat (bits.take 8) :: decode8Aux fuel (bits.drop 8) else []) = _
        rw [if_neg h8]
      rw [hstep] at hx
      simp at hx

/-- C10: `encodeToBinary` emits exactly 8 bits per character iff every
character's code point is at most 255; any code point ≥ 256 contributes
more than 8 bits, and every packet string containing one is no longer
inverted by the receiver's fixed 8-bit regrouping. -/
theorem encode_eight_bits_iff :
    (∀ s : List Nat, (encodeToBinary s).length = 8 * s.length ↔ ∀ c ∈ s, c < 256) ∧
    (∀ c : Nat, 256 ≤ c → 8 < (charBits c).length) ∧
    (∀ s : List Nat, (∃ c ∈ s, 256 ≤ c) → decode8 (encodeToBinary s) ≠ s) := by
  refine ⟨?_, fun c hc => (charBits_length c).2 hc, ?_⟩
  · intro s
    induction s with
    | nil => simp [encodeToBinary]
    | cons c t ih =>
      have hstep : (encodeToBinary (c :: t)).length =
          (charBits c).length + (encodeToBinary t).length := by
        unfold encodeToBinary
        simp
      constructor
      · intro h
        rw [hstep] at h
        have hge8 := charBits_length_ge c
        have hget : 8 * t.length ≤ (encodeToBinary t).length := by
          clear h ih hstep
          induction t with
          | nil => simp [encodeToBinary]
          | cons d u ihu =>
            have hstep2 : (encodeToBinary (d :: u)).length =
                (charBits d).length + (encodeToBinary u).length := by
              unfold encodeToBinary
              simp
            rw [hstep2]
            have := charBits_length_ge d
            simp only [List.length_cons]
            omega
        have hceq : (charBits c).length = 8 := by
          simp only [List.length_cons] at h
          omega
        have hteq : (encodeToBinary t).length = 8 * t.length := by
          simp only [List.length_cons] at h
          omega
        intro x hx
        rcases List.mem_cons.mp hx with rfl | hx2
        · by_contra hge
          have := (charBits_length x).2 (by omega)
          omega
        · exact (ih.mp hteq) x hx2
      · intro h
        rw [hstep]
        have hc := (charBits_length c).1 (h c (List.mem_cons_self c t))
        have ht := ih.mpr fun x hx => h x (List.mem_cons_of_mem c hx)
        rw [hc, ht, List.length_cons]
        ring
  · intro s ⟨c, hcs, hc⟩ heq
    have := decode8Aux_lt (encodeToBinary s).length (encodeToBinary s) c
      (by show c ∈ decode8 (encodeToBinary s); rw [heq]; exact hcs)
    omega

/-- Witness for `encode_eight_bits_iff`: the single code point 256 breaks
the 8-bit regrouping (it decodes to `[128]`). -/
theorem encode_eight_bits_iff_witness :
    decode8 (encodeToBinary [256]) ≠ [256] ∧ 8 < (charBits 256).length :=
  ⟨encode_eight_bits_iff.2.2 [256] ⟨256, by decide, by decide⟩,
   encode_eight_bits_iff.2.1 256 (by decide)⟩


/-! ### Fold-max helpers for `Math.max(...)` -/

theorem foldl_max_le (target : Nat) :
    ∀ (l : List Nat) (a : Nat), a ≤ target → (∀ x ∈ l, x ≤ target) →
      l.foldl max a ≤ target := by
  intro l
  induction l with
  | nil => intro a ha _; exact ha
  | cons x t ih =>
    intro a ha hall
    refine ih (max a x) ?_ fun y hy => hall y (List.mem_cons_of_mem x hy)
    exact max_le ha (hall x (List.mem_cons_self x t))

theorem le_foldl_max :
    ∀ (l : List Nat) (a : Nat), a ≤ l.foldl max a ∧ ∀ x ∈ l, x ≤ l.foldl max a := by
  intro l
  induction l with
  | nil => intro a; exact ⟨le_rfl, by simp⟩
  | cons x t ih =>
    intro a
    obtain ⟨h1, h2⟩ := ih (max a x)
    refine ⟨le_trans (le_max_left a x) h1, fun y hy => ?_⟩
    rcases List.mem_cons.mp hy with rfl | hy2
    · exact le_trans (le_max_right a y) h1
    · exact h2 y hy2

theorem foldl_max_shift :
    ∀ (l : List Nat) (a b : Nat), l.foldl max (max a b) = max a (l.foldl max b) := by
  intro l
  induction l with
  | nil => intro a b; rfl
  | cons x t ih =>
    intro a b
    show t.foldl max (max (max a b) x) = max a ((x :: t).foldl max b)
    rw [max_assoc, ih a (max b x)]
    rfl

theorem foldl_max_zero_cons (x : Nat) (t : List Nat) :
    (x :: t).foldl max 0 = max x (t.foldl max 0) := by
  show t.foldl max (max 0 x) = max x (t.foldl max 0)
  rw [max_comm 0 x, foldl_max_shift]

theorem foldl_max_map_succ :
    ∀ (l : List Nat), l ≠ [] → (l.map (· + 1)).foldl max 0 = l.foldl max 0 + 1 := by
  intro l
  induction l with
  | nil => intro h; exact absurd rfl h
  | cons x t ih =>
    intro _
    rw [List.map_cons, foldl_max_zero_cons, foldl_max_zero_cons]
    cases t with
    | nil => simp
    | cons y u =>
      rw [ih (by simp)]
      have := Nat.succ_max_succ x ((y :: u).foldl max 0)
      simpa using this

/-! ### Structure of the round-robin channel streams -/

theorem filter_mod_small (n : Nat) (_hn : 1 ≤ n) :
    ∀ (L ch : Nat), ch < n → L ≤ n →
      (List.range L).filter (fun i => i % n == ch) = if ch < L then [ch] else [] := by
  intro L
  induction L with
  | zero => intro ch _ _; simp
  | succ L ihL =>
    intro ch hch hLn
    rw [List.range_succ, List.filter_append, ihL ch hch (by omega)]
    have hLmod : L % n = L := Nat.mod_eq_of_lt (by omega)
    by_cases he : L = ch
    · subst he
      have hp : (L % n == L) = true := by simp [hLmod]
      rw [if_neg (lt_irrefl L), if_pos (Nat.lt_succ_self L)]
      simp [hp]
    · have hp : (L % n == ch) = false := by simp [hLmod, he]
      have hiff : ch < L + 1 ↔ ch < L := by omega
      by_cases hcl : ch < L
      · rw [if_pos hcl, if_pos (by omega)]
        simp [hp]
      · rw [if_neg hcl, if_neg (by omega)]
        simp [hp]

theorem filter_mod_split (n : Nat) (hn : 1 ≤ n) (L ch : Nat) (hch : ch < n) (hnL : n ≤ L) :
    (List.range L).filter (fun i => i % n == ch) =
      ch :: ((List.range (L - n)).filter (fun i => i % n == ch)).map (fun x => n + x) := by
  have hL : L = n + (L - n) := by omega
  conv_lhs => rw [hL]
  rw [List.range_add, List.filter_append,
    filter_mod_small n hn n ch hch le_rfl, if_pos hch, List.filter_map]
  have hpred : List.filter ((fun i => i % n == ch) ∘ (fun x => n + x)) (List.range (L - n)) =
      List.filter (fun i => i % n == ch) (List.range (L - n)) := by
    rw [List.filter_congr]
    intro i _
    show ((n + i) % n == ch) = (i % n == ch)
    rw [Nat.add_mod_left]
  rw [hpred]
  rfl


/-- Channel streams when the whole input fits in one slot. -/
theorem channelStream_small (n : Nat) (hn : 1 ≤ n) (s : List Bool) (ch : Nat)
    (hch : ch < n) (hL : s.length ≤ n) :
    channelStream n s ch = if ch < s.length then [s.getD ch false] else [] := by
  unfold channelStream
  rw [filter_mod_small n hn s.length ch hch hL]
  by_cases hcl : ch < s.length
  · rw [if_pos hcl, if_pos hcl]
    rfl
  · rw [if_neg hcl, if_neg hcl]
    rfl

/-- Channel streams peel one slot when the input spans more than one. -/
theorem channelStream_step (n : Nat) (hn : 1 ≤ n) (s : List Bool) (ch : Nat)
    (hch : ch < n) (hnL : n ≤ s.length) :
    channelStream n s ch = s.getD ch false :: channelStream n (s.drop n) ch := by
  unfold channelStream
  rw [filter_mod_split n hn s.length ch hch hnL, List.map_cons, List.map_map,
    List.length_drop]
  congr 1
  rw [List.map_congr_left]
  intro i hi
  show s.getD (n + i) false = (s.drop n).getD i false
  rw [List.getD_eq_getElem?_getD, List.getD_eq_getElem?_getD, List.getElem?_drop]


theorem maxStreamLen_nil (n : Nat) : maxStreamLen n [] = 0 := by
  unfold maxStreamLen
  apply Nat.le_antisymm
  · apply foldl_max_le 0 _ 0 le_rfl
    intro x hx
    obtain ⟨ch, _, hx2⟩ := List.mem_map.mp hx
    have : channelStream n [] ch = [] := by
      unfold channelStream
      simp
    rw [this] at hx2
    simp at hx2
    omega
  · exact Nat.zero_le _

theorem maxStreamLen_small (n : Nat) (hn : 1 ≤ n) (s : List Bool)
    (h0 : 0 < s.length) (hL : s.length ≤ n) :
    maxStreamLen n s = 1 := by
  unfold maxStreamLen
  apply Nat.le_antisymm
  · apply foldl_max_le 1 _ 0 (by omega)
    intro x hx
    obtain ⟨ch, hch, hx2⟩ := List.mem_map.mp hx
    rw [channelStream_small n hn s ch (List.mem_range.mp hch) hL] at hx2
    by_cases hcl : ch < s.length
    · rw [if_pos hcl] at hx2
      simp at hx2
      omega
    · rw [if_neg hcl] at hx2
      simp at hx2
      omega
  · have hmem : (1 : Nat) ∈ (List.range n).map fun ch => (channelStream n s ch).length := by
      refine List.mem_map.mpr ⟨0, List.mem_range.mpr (by omega), ?_⟩
      rw [channelStream_small n hn s 0 (by omega) hL, if_pos h0]
      rfl
    exact (le_foldl_max _ 0).2 1 hmem

theorem maxStreamLen_step (n : Nat) (hn : 1 ≤ n) (s : List Bool) (hnL : n ≤ s.length) :
    maxStreamLen n s = maxStreamLen n (s.drop n) + 1 := by
  unfold maxStreamLen
  have hmapeq : ((List.range n).map fun ch => (channelStream n s ch).length) =
      ((List.range n).map fun ch => (channelStream n (s.drop n) ch).length).map (· + 1) := by
    rw [List.map_map]
    rw [List.map_congr_left]
    intro ch hch
    show (channelStream n s ch).length = (channelStream n (s.drop n) ch).length + 1
    rw [channelStream_step n hn s ch (List.mem_range.mp hch) hnL]
    rfl
  rw [hmapeq, foldl_max_map_succ]
  intro hnil
  have : ((List.range n).map fun ch => (channelStream n (s.drop n) ch).length).length = n := by
    rw [List.length_map, List.length_range]
  rw [hnil] at this
  simp at this
  omega


/-- Padded streams in the single-slot case. -/
theorem paddedStream_small (n : Nat) (hn : 1 ≤ n) (s : List Bool) (ch : Nat)
    (hch : ch < n) (h0 : 0 < s.length) (hL : s.length ≤ n) :
    paddedStream n s ch = if ch < s.length then [s.getD ch false] else [false] := by
  unfold paddedStream
  rw [channelStream_small n hn s ch hch hL, maxStreamLen_small n hn s h0 hL]
  by_cases hcl : ch < s.length
  · rw [if_pos hcl, if_pos hcl]
    rfl
  · rw [if_neg hcl, if_neg hcl]
    rfl

/-- Padded streams peel one slot in the multi-slot case. -/
theorem paddedStream_step (n : Nat) (hn : 1 ≤ n) (s : List Bool) (ch : Nat)
    (hch : ch < n) (hnL : n ≤ s.length) :
    paddedStream n s ch = s.getD ch false :: paddedStream n (s.drop n) ch := by
  unfold paddedStream
  rw [channelStream_step n hn s ch hch hnL, maxStreamLen_step n hn s hnL]
  rw [List.length_cons, Nat.succ_sub_succ]
  rfl

/-- `(range m).map (s.getD · false) = s.take m` for `m ≤ s.length`. -/
theorem map_range_getD (s : List Bool) (m : Nat) (hm : m ≤ s.length) :
    (List.range m).map (fun i => s.getD i false) = s.take m := by
  apply List.ext_getElem
  · rw [List.length_map, List.length_range, List.length_take]
    omega
  · intro i h1 h2
    rw [List.getElem_map, List.getElem_range, List.getElem_take]
    rw [List.length_map, List.length_range] at h1
    exact List.getD_eq_getElem s false (by omega)


theorem readBack_nil (n : Nat) : readBack n [] = [] := by
  unfold readBack
  rw [maxStreamLen_nil]
  rfl

/-- The inductive engine for the interleave round trip. -/
theorem readBack_aux (n : Nat) (hn : 1 ≤ n) :
    ∀ (N : Nat) (s : List Bool), s.length ≤ N →
      ∃ k, k ≤ n - 1 ∧ readBack n s = s ++ List.replicate k false := by
  intro N
  induction N with
  | zero =>
    intro s hs
    have hnil : s = [] := List.length_eq_zero.mp (by omega)
    subst hnil
    exact ⟨0, by omega, by rw [readBack_nil]; rfl⟩
  | succ N ihN =>
    intro s hs
    by_cases h0 : s.length = 0
    · have hnil : s = [] := List.length_eq_zero.mp h0
      subst hnil
      exact ⟨0, by omega, by rw [readBack_nil]; rfl⟩
    · by_cases hsmall : s.length ≤ n
      · refine ⟨n - s.length, by omega, ?_⟩
        unfold readBack
        rw [maxStreamLen_small n hn s (by omega) hsmall]
        show (([0] : List Nat).map fun slot =>
          (List.range n).map fun ch => (paddedStream n s ch).getD slot false).flatten = _
        rw [List.map_cons, List.map_nil, List.flatten_cons, List.flatten_nil, List.append_nil]
        have hmap : ((List.range n).map fun ch => (paddedStream n s ch).getD 0 false) =
            (List.range n).map fun ch => if ch < s.length then s.getD ch false else false := by
          rw [List.map_congr_left]
          intro ch hch
          rw [paddedStream_small n hn s ch (List.mem_range.mp hch) (by omega) hsmall]
          by_cases hcl : ch < s.length
          · rw [if_pos hcl, if_pos hcl]
            rfl
          · rw [if_neg hcl, if_neg hcl]
            rfl
        rw [hmap]
        have hsplit : n = s.length + (n - s.length) := by omega
        conv_lhs => rw [hsplit]
        rw [List.range_add, List.map_append, List.map_map]
        congr 1
        · have : ((List.range s.length).map fun ch =>
              if ch < s.length then s.getD ch false else false) =
              (List.range s.length).map fun ch => s.getD ch false := by
            rw [List.map_congr_left]
            intro ch hch
            rw [if_pos (List.mem_range.mp hch)]
          rw [this, map_range_getD s s.length le_rfl, List.take_length]
        · have : ((List.range (n - s.length)).map
              ((fun ch => if ch < s.length then s.getD ch false else false) ∘
                fun x => s.length + x)) =
              (List.range (n - s.length)).map fun _ => false := by
            rw [List.map_congr_left]
            intro i _
            show (if s.length + i < s.length then s.getD (s.length + i) false else false) = false
            rw [if_neg (by omega)]
          rw [this]
          show _ = List.replicate (n - s.length) false
          rw [show (fun _ : Nat => false) = Function.const Nat false from rfl, List.map_const,
            List.length_range]
      · have hnL : n ≤ s.length := by omega
        obtain ⟨k, hk, hrec⟩ := ihN (s.drop n) (by rw [List.length_drop]; omega)
        refine ⟨k, hk, ?_⟩
        unfold readBack
        rw [maxStreamLen_step n hn s hnL, List.range_succ_eq_map, List.map_cons,
          List.flatten_cons, List.map_map]
        have hslot0 : ((List.range n).map fun ch => (paddedStream n s ch).getD 0 false) =
            s.take n := by
          have : ((List.range n).map fun ch => (paddedStream n s ch).getD 0 false) =
              (List.range n).map fun ch => s.getD ch false := by
            rw [List.map_congr_left]
            intro ch hch
            rw [paddedStream_step n hn s ch (List.mem_range.mp hch) hnL]
            rfl
          rw [this, map_range_getD s n hnL]
        have hrest : ((List.range (maxStreamLen n (s.drop n))).map
            ((fun slot => (List.range n).map fun ch => (paddedStream n s ch).getD slot false) ∘
              Nat.succ)) =
            (List.range (maxStreamLen n (s.drop n))).map fun slot =>
              (List.range n).map fun ch => (paddedStream n (s.drop n) ch).getD slot false := by
          rw [List.map_congr_left]
          intro slot _
          show ((List.range n).map fun ch => (paddedStream n s ch).getD (Nat.succ slot) false) = _
          rw [List.map_congr_left]
          intro ch hch
          rw [paddedStream_step n hn s ch (List.mem_range.mp hch) hnL]
          rfl
        rw [hslot0, hrest]
        have hrb : ((List.range (maxStreamLen n (s.drop n))).map fun slot =>
            (List.range n).map fun ch => (paddedStream n (s.drop n) ch).getD slot false).flatten =
            readBack n (s.drop n) := rfl
        rw [hrb, hrec, ← List.append_assoc, List.take_append_drop]

/-- C6: for every channel count `n ≥ 1` and bit string `s`, distributing
round-robin, padding to the longest stream, and reading back slot by slot
in ascending channel order yields exactly `s` followed by at most `n − 1`
trailing zero bits. -/
theorem interleave_round_trip (n : Nat) (hn : 1 ≤ n) (s : List Bool) :
    ∃ k, k ≤ n - 1 ∧ readBack n s = s ++ List.replicate k false :=
  readBack_aux n hn s.length s le_rfl

/-- Witness for `interleave_round_trip`: the spec's seed vector
`s = "10110010"`, `N = 4` (8 bits, so no padding). -/
theorem interleave_round_trip_witness :
    ∃ k, k ≤ 3 ∧ readBack 4 [true, false, true, true, false, false, true, false] =
      [true, false, true, true, false, false, true, false] ++ List.replicate k false :=
  interleave_round_trip 4 (by decide) [true, false, true, true, false, false, true, false]

end SonicTransfer
